import Mathlib

/-!
# The in-memory store of `data/memory.go`

A shallow embedding of `memoryDB` (objects, roots and the per-feed index of
root hashes) and of its operations, followed by the properties proved about
them.

Conventions of the embedding.

* A Go `map[K]V` is an association list with pairwise distinct keys
  (`AList`).  Every theorem quantifies over all such lists, hence over every
  order in which the entries could be enumerated.  Assigning to a key that is
  present, or mutating an inner map through its reference, keeps the position
  of the entry (`AList.replace`); assigning to a fresh key adds an entry
  (`AList.insert`); `delete` is `AList.erase`.
* A comma-ok result `(v, ok)` is an `Option`: `some v` is `(v, true)` and
  `none` is `(zero value, false)`.
* A Go `panic`, the one of a nil dereference included, is the outer `none`
  of an `Option` result.
* The lock call of every method is recorded in `Method.access`; goroutines
  are not modelled.
* A `uint64` sequence number is a natural number; the store does no
  arithmetic on it.
* Records and byte slices are values.  What a caller can still do to a stored
  record after a call, through the pointer the store handed out or through
  the byte array it shares with the store, is a step of its own
  (`Step.writeRecord`, `Step.writeRootBytes`); `Reachable` is reachability by
  public calls alone, `ReachableByCallers` admits those writes in between.
* The mutex plays no role in a sequential run and is left out.
* The hash function `cipher.SumSHA256` is a parameter of `Add` and `AddRoot`;
  the general theorems hold for every such function.
-/

namespace cipher

/-- The digest type `cipher.SHA256` (32 bytes), read as a number; the zero
value `cipher.SHA256{}` is `0`. -/
abbrev SHA256 := Nat

/-- The key type `cipher.PubKey`, read as a number. -/
abbrev PubKey := Nat

/-- The signature type `cipher.Sig`, read as a number. -/
abbrev Sig := Nat

end cipher

namespace data

/-- A byte slice `[]byte`. -/
abbrev Bytes := List Nat

/-- Modelled from the spec: the struct `RootPack` is declared outside
`memory.go`; these are the fields `memory.go` reads (`Root`, `Seq`, `Prev`,
`Hash`) together with the signature the data model lists. -/
structure RootPack where
  Root : Bytes
  Seq : Nat
  Prev : cipher.SHA256
  Hash : cipher.SHA256
  Sig : cipher.Sig
deriving DecidableEq, Repr

/-- Modelled from the spec: the error values of `AddRoot`.  `newRootError`
and `ErrRootAlreadyExists` are declared outside `memory.go`; a value built by
`newRootError(pk, rp, descr)` is the malformed-root error and
`ErrRootAlreadyExists` is the conflict error. -/
inductive Error where
  | rootError (pk : cipher.PubKey) (rp : RootPack) (descr : String)
  | ErrRootAlreadyExists
deriving DecidableEq, Repr

/-- The inner map of `feeds`: `map[uint64]cipher.SHA256`. -/
abbrev FeedIndex := AList (fun _ : Nat => cipher.SHA256)

/-- The map `roots`: `map[cipher.SHA256]*RootPack`. -/
abbrev RootsMap := AList (fun _ : cipher.SHA256 => RootPack)

/-- Equality of two maps is decided on their lists of entries. -/
instance decEqAList {K : Type} {V : Type} [DecidableEq K] [DecidableEq V] :
    DecidableEq (AList (fun _ : K => V)) :=
  fun a b => decidable_of_iff (a.entries = b.entries)
    ⟨AList.ext, fun h => congrArg AList.entries h⟩

/-- The struct `memoryDB` without its mutex. -/
structure memoryDB where
  objects : AList (fun _ : cipher.SHA256 => Bytes)
  roots : RootsMap
  feeds : AList (fun _ : cipher.PubKey => FeedIndex)
deriving DecidableEq

/-- The function `NewMemoryDB`: three empty maps. -/
def NewMemoryDB : memoryDB := ⟨∅, ∅, ∅⟩

namespace memoryDB

/-- The method `Del`: `delete(d.objects, key)`. -/
def Del (d : memoryDB) (key : cipher.SHA256) : memoryDB :=
  { d with objects := d.objects.erase key }

/-- The method `Get`: `value, ok = d.objects[key]`. -/
def Get (d : memoryDB) (key : cipher.SHA256) : Option Bytes :=
  d.objects.lookup key

/-- The assignment `m[k] = v` on a Go map: the entry is overwritten where it
stands when `k` is present and added otherwise. -/
def assign {K : Type} {V : Type} [DecidableEq K] (m : AList (fun _ : K => V)) (k : K) (v : V) :
    AList (fun _ : K => V) :=
  if k ∈ m then m.replace k v else m.insert k v

/-- The method `Set`: `d.objects[key] = value`. -/
def Set (d : memoryDB) (key : cipher.SHA256) (value : Bytes) : memoryDB :=
  { d with objects := assign d.objects key value }

/-- The method `Add`: `key = cipher.SumSHA256(value); d.Set(key, value)`.
The hash function of the `cipher` package is the parameter `SumSHA256`. -/
def Add (SumSHA256 : Bytes → cipher.SHA256) (d : memoryDB) (value : Bytes) :
    memoryDB × cipher.SHA256 :=
  (d.Set (SumSHA256 value) value, SumSHA256 value)

/-- The method `IsExist`: `_, ok = d.objects[key]`. -/
def IsExist (d : memoryDB) (key : cipher.SHA256) : Bool :=
  (d.objects.lookup key).isSome

/-- The method `RangeDelete`: every key of `objects` for which `fn` answers
true is deleted. -/
def RangeDelete (d : memoryDB) (fn : cipher.SHA256 → Bool) : memoryDB :=
  { d with objects :=
      d.objects.keys.foldl (fun o key => if fn key then o.erase key else o) d.objects }

/-- The method `AddFeed`: an empty index is registered when `pk` has none. -/
def AddFeed (d : memoryDB) (pk : cipher.PubKey) : memoryDB :=
  match d.feeds.lookup pk with
  | some _ => d
  | none => { d with feeds := d.feeds.insert pk ∅ }

/-- The method `HasFeed`: `_, has = d.feeds[pk]`. -/
def HasFeed (d : memoryDB) (pk : cipher.PubKey) : Bool :=
  (d.feeds.lookup pk).isSome

/-- The method `Feeds`: the registered keys (the nil slice when there are
none). -/
def Feeds (d : memoryDB) : List cipher.PubKey :=
  d.feeds.keys

/-- The expression `d.feeds[pk]`: the index of `pk`, the nil map (which reads
as empty) when `pk` is not registered. -/
def feedIndex (d : memoryDB) (pk : cipher.PubKey) : FeedIndex :=
  (d.feeds.lookup pk).getD ∅

/-- The expression `roots[seq]` on an index: the zero hash when `seq` is not a
key. -/
def hashAt (roots : FeedIndex) (seq : Nat) : cipher.SHA256 :=
  (roots.lookup seq).getD 0

/-- The method `DelFeed`: every hash of the index of `pk` is deleted from
`roots`, then `pk` is deleted from `feeds`. -/
def DelFeed (d : memoryDB) (pk : cipher.PubKey) : memoryDB :=
  { d with
    roots := (d.feedIndex pk).entries.foldl (fun r e => r.erase e.2) d.roots
    feeds := d.feeds.erase pk }

/-- The first test of `AddRoot`: sequence number 0 goes with the zero
previous reference and no other sequence number does. -/
def testPrev (pk : cipher.PubKey) (rp : RootPack) : Option Error :=
  if rp.Seq = 0 then
    if rp.Prev ≠ 0 then
      some (Error.rootError pk rp "unexpected prev. reference")
    else
      none
  else if rp.Prev = 0 then
    some (Error.rootError pk rp "missing prev. reference")
  else
    none

/-- The tests at the head of `AddRoot`, made before the lock is taken: the
error they return, if any. -/
def testRoot (SumSHA256 : Bytes → cipher.SHA256) (pk : cipher.PubKey) (rp : RootPack) :
    Option Error :=
  match testPrev pk rp with
  | some err => some err
  | none =>
    if rp.Hash ≠ SumSHA256 rp.Root then
      some (Error.rootError pk rp "wrong hash of the root")
    else
      none

/-- The method `AddRoot`.  The record is checked first (sequence number
against previous reference, then the hash of `Root`); then the feed is
created with the single entry, or the sequence number is refused when already
indexed, or the entry is added to the index; the record is stored in `roots`
under its hash.  The stored record is a value here; that the struct copy
`*rp = *rr` leaves the stored `Root` on the caller's byte array, and that the
stored pointer is handed out later, is what `writeRootBytes` and
`writeRecord` model. -/
def AddRoot (SumSHA256 : Bytes → cipher.SHA256) (d : memoryDB) (pk : cipher.PubKey)
    (rp : RootPack) : memoryDB × Option Error :=
  match testRoot SumSHA256 pk rp with
  | some err => (d, some err)
  | none =>
    match d.feeds.lookup pk with
    | none =>
      ({ d with
         feeds := d.feeds.insert pk (AList.singleton rp.Seq rp.Hash)
         roots := assign d.roots rp.Hash rp }, none)
    | some roots =>
      if rp.Seq ∈ roots then
        (d, some Error.ErrRootAlreadyExists)
      else
        ({ d with
           feeds := d.feeds.replace pk (roots.insert rp.Seq rp.Hash)
           roots := assign d.roots rp.Hash rp }, none)

/-- The loop `for seq := range roots { if max < seq { max = seq } }` of
`LastRoot`, started at `max`. -/
def maxSeq (seqs : List Nat) (max : Nat) : Nat :=
  seqs.foldl (fun m seq => if m < seq then seq else m) max

/-- The method `LastRoot`.  The outer `none` is the panic
"broken db: misisng root"; `some none` is `(nil, false)`. -/
def LastRoot (d : memoryDB) (pk : cipher.PubKey) : Option (Option RootPack) :=
  let roots := d.feedIndex pk
  if roots.keys.length = 0 then
    some none
  else
    match d.roots.lookup (hashAt roots (maxSeq roots.keys 0)) with
    | none => none
    | some rp => some (some rp)

/-- The call `sort.Sort(o)` on an `order`: the standard library sorts by
`Less`, that is `o[i] < o[j]`, so the result is ascending. -/
def sortOrder (o : List Nat) : List Nat :=
  o.insertionSort (fun a b => a ≤ b)

/-- The call `sort.Sort(sort.Reverse(o))`: `Less` is flipped, so the result
is descending. -/
def sortReverse (o : List Nat) : List Nat :=
  o.insertionSort (fun a b => b ≤ a)

/-- The visiting loop shared by `RangeFeed` and `RangeFeedReverse`, over the
sorted sequence numbers: the records handed to `fn`, in order, up to and
including the one at which `fn` asks to stop; `none` is the panic
"broken database: misisng root". -/
def visitLoop (rs : RootsMap) (roots : FeedIndex) (fn : RootPack → Bool) :
    List Nat → Option (List RootPack)
  | [] => some []
  | seq :: rest =>
    match rs.lookup (hashAt roots seq) with
    | none => none
    | some rp =>
      if fn rp then some [rp]
      else (visitLoop rs roots fn rest).map (fun visited => rp :: visited)

/-- The method `RangeFeed`: the records handed to the visitor, in order. -/
def RangeFeed (d : memoryDB) (pk : cipher.PubKey) (fn : RootPack → Bool) :
    Option (List RootPack) :=
  let roots := d.feedIndex pk
  if roots.keys.length = 0 then some []
  else visitLoop d.roots roots fn (sortOrder roots.keys)

/-- The method `RangeFeedReverse`: the records handed to the visitor, in
order. -/
def RangeFeedReverse (d : memoryDB) (pk : cipher.PubKey) (fn : RootPack → Bool) :
    Option (List RootPack) :=
  let roots := d.feedIndex pk
  if roots.keys.length = 0 then some []
  else visitLoop d.roots roots fn (sortReverse roots.keys)

/-- The loop of `RangeFeedDelete` over the sorted sequence numbers, on the
pair of `d.roots` and the index of the feed.  The predicate receives
`d.roots[roots[seq]]`, which is nil (`none`) when the hash is not stored. -/
def deleteLoop (fn : Option RootPack → Bool) :
    List Nat → RootsMap × FeedIndex → RootsMap × FeedIndex
  | [], st => st
  | seq :: rest, (rs, roots) =>
    if fn (rs.lookup (hashAt roots seq)) then
      deleteLoop fn rest (rs.erase (hashAt roots seq), roots.erase seq)
    else
      deleteLoop fn rest (rs, roots)

/-- The method `RangeFeedDelete`. -/
def RangeFeedDelete (d : memoryDB) (pk : cipher.PubKey) (fn : Option RootPack → Bool) :
    memoryDB :=
  let roots := d.feedIndex pk
  if roots.keys.length = 0 then d
  else
    let st := deleteLoop fn (sortOrder roots.keys) (d.roots, roots)
    { d with roots := st.1, feeds := d.feeds.replace pk st.2 }

/-- The method `GetRoot`: `rp, ok = d.roots[hash]`. -/
def GetRoot (d : memoryDB) (hash : cipher.SHA256) : Option RootPack :=
  d.roots.lookup hash

/-- The last loop of `DelRootsBefore`:
`delete(d.roots, roots[s]); delete(roots, s)` for every collected `s`. -/
def trimLoop : List Nat → RootsMap × FeedIndex → RootsMap × FeedIndex
  | [], st => st
  | s :: rest, (rs, roots) => trimLoop rest (rs.erase (hashAt roots s), roots.erase s)

/-- The method `DelRootsBefore`. -/
def DelRootsBefore (d : memoryDB) (pk : cipher.PubKey) (seq : Nat) : memoryDB :=
  let roots := d.feedIndex pk
  if roots.keys.length = 0 then d
  else
    let o := roots.keys.filter (fun s => s < seq)
    if o.length = 0 then d
    else
      let st := trimLoop (sortOrder o) (d.roots, roots)
      { d with roots := st.1, feeds := d.feeds.replace pk st.2 }

end memoryDB

/-- A call of one of the state-changing public methods of the store. -/
inductive Op where
  | Set (key : cipher.SHA256) (value : Bytes)
  | Add (value : Bytes)
  | Del (key : cipher.SHA256)
  | RangeDelete (fn : cipher.SHA256 → Bool)
  | AddFeed (pk : cipher.PubKey)
  | DelFeed (pk : cipher.PubKey)
  | AddRoot (pk : cipher.PubKey) (rp : RootPack)
  | RangeFeedDelete (pk : cipher.PubKey) (fn : Option RootPack → Bool)
  | DelRootsBefore (pk : cipher.PubKey) (seq : Nat)

/-- The store after one call. -/
def Op.apply (SumSHA256 : Bytes → cipher.SHA256) (d : memoryDB) : Op → memoryDB
  | Op.Set key value => d.Set key value
  | Op.Add value => (d.Add SumSHA256 value).1
  | Op.Del key => d.Del key
  | Op.RangeDelete fn => d.RangeDelete fn
  | Op.AddFeed pk => d.AddFeed pk
  | Op.DelFeed pk => d.DelFeed pk
  | Op.AddRoot pk rp => (d.AddRoot SumSHA256 pk rp).1
  | Op.RangeFeedDelete pk fn => d.RangeFeedDelete pk fn
  | Op.DelRootsBefore pk seq => d.DelRootsBefore pk seq

/-- The store after a sequence of calls, from `d`. -/
def run (SumSHA256 : Bytes → cipher.SHA256) (d : memoryDB) (ops : List Op) : memoryDB :=
  ops.foldl (Op.apply SumSHA256) d

/-- A store is reachable when some sequence of public calls produces it from
`NewMemoryDB()`, no caller writing in between through a pointer or a byte
array it shares with the store. -/
def Reachable (SumSHA256 : Bytes → cipher.SHA256) (d : memoryDB) : Prop :=
  ∃ ops : List Op, run SumSHA256 NewMemoryDB ops = d

/-! ## Writes of a caller through what it shares with the roots map

`AddRoot` copies the struct of the given record (`*rp = *rr`), so the stored
`Root` slice keeps the backing array of the caller's slice, and `GetRoot`,
`LastRoot` and the callbacks of `RangeFeed`, `RangeFeedReverse` and
`RangeFeedDelete` receive the stored pointer itself. -/

namespace memoryDB

/-- The caller's statements `rp, ok := d.GetRoot(hash); if ok { *rp = w }`:
the fields of the record stored under `hash` are overwritten through the
pointer that `GetRoot` returned (or `LastRoot`, or a visitor received). -/
def writeRecord (d : memoryDB) (hash : cipher.SHA256) (w : RootPack) : memoryDB :=
  match d.GetRoot hash with
  | none => d
  | some _ => { d with roots := d.roots.replace hash w }

/-- The caller's statement `copy(rr.Root, bytes)` after `AddRoot(pk, rr)`, for
the record stored under `hash`: the bytes of the array that the stored `Root`
shares with the caller's slice are overwritten; the length stays. -/
def writeRootBytes (d : memoryDB) (hash : cipher.SHA256) (bytes : Bytes) : memoryDB :=
  match d.GetRoot hash with
  | none => d
  | some rp =>
    if bytes.length = rp.Root.length then
      { d with roots := d.roots.replace hash { rp with Root := bytes } }
    else d

end memoryDB

/-- A step of a program that uses the store: a call of a state-changing
public method, or a write of the caller through a stored record it shares
with the store. -/
inductive Step where
  | call (op : Op)
  | writeRecord (hash : cipher.SHA256) (w : RootPack)
  | writeRootBytes (hash : cipher.SHA256) (bytes : Bytes)

/-- The store after one step. -/
def Step.apply (SumSHA256 : Bytes → cipher.SHA256) (d : memoryDB) : Step → memoryDB
  | Step.call op => op.apply SumSHA256 d
  | Step.writeRecord hash w => d.writeRecord hash w
  | Step.writeRootBytes hash bytes => d.writeRootBytes hash bytes

/-- The store after a sequence of steps, from `d`. -/
def runSteps (SumSHA256 : Bytes → cipher.SHA256) (d : memoryDB) (steps : List Step) :
    memoryDB :=
  steps.foldl (Step.apply SumSHA256) d

/-- A store is reachable by callers when some sequence of public calls and of
writes through shared records produces it from `NewMemoryDB()`. -/
def ReachableByCallers (SumSHA256 : Bytes → cipher.SHA256) (d : memoryDB) : Prop :=
  ∃ steps : List Step, runSteps SumSHA256 NewMemoryDB steps = d

/-- A small stand-in for the hash function, used to evaluate the store on
concrete inputs: the sum of the bytes plus one. -/
def toySum (b : Bytes) : cipher.SHA256 := b.sum + 1

/-! ## The arguments of the predicate of `RangeFeedDelete` -/

namespace memoryDB

/-- The arguments handed to `fn` by the loop of `RangeFeedDelete`, in order:
the loop of `deleteLoop`, keeping `rp := d.roots[roots[seq]]` of every turn
(`none` is the nil pointer of a hash that is not stored). -/
def deleteVisits (fn : Option RootPack → Bool) :
    List Nat → RootsMap × FeedIndex → List (Option RootPack)
  | [], _ => []
  | seq :: rest, (rs, roots) =>
    if fn (rs.lookup (hashAt roots seq)) then
      rs.lookup (hashAt roots seq) ::
        deleteVisits fn rest (rs.erase (hashAt roots seq), roots.erase seq)
    else
      rs.lookup (hashAt roots seq) :: deleteVisits fn rest (rs, roots)

/-- The arguments handed to `fn` by `RangeFeedDelete(pk, fn)`, in order. -/
def RangeFeedDeleteVisits (d : memoryDB) (pk : cipher.PubKey) (fn : Option RootPack → Bool) :
    List (Option RootPack) :=
  let roots := d.feedIndex pk
  if roots.keys.length = 0 then []
  else deleteVisits fn (sortOrder roots.keys) (d.roots, roots)

end memoryDB

/-! ## Statistics -/

/-- Modelled from the spec: the struct `FeedStat` is declared outside
`memory.go`; the root count and the byte size of one feed.  The type `Space`
is a natural number here: the sums of `Stat` stay far below any machine
bound. -/
structure FeedStat where
  Roots : Nat
  Space : Nat
deriving DecidableEq, Repr

/-- Modelled from the spec: the struct `Stat` is declared outside
`memory.go`; object count, object bytes and the statistics of every feed. -/
structure Stat where
  Objects : Nat
  Space : Nat
  Feeds : AList (fun _ : cipher.PubKey => FeedStat)
deriving DecidableEq

namespace memoryDB

/-- The inner loop of `Stat` over the index of one feed, started at `space`:
`fs.Space += Space(len(d.roots[hash].Root) + add)`.  The result `none` is the
nil dereference at a hash that `roots` does not hold. -/
def feedSpace (rs : RootsMap) (add : Nat) :
    List (Sigma (fun _ : Nat => cipher.SHA256)) → Nat → Option Nat
  | [], space => some space
  | e :: rest, space =>
    match rs.lookup e.2 with
    | none => none
    | some rp => feedSpace rs add rest (space + (rp.Root.length + add))

/-- The outer loop of `Stat` over `d.feeds`: `fs.Roots = len(rs)` and
`s.Feeds[pk] = fs` for every feed. -/
def statFeeds (rs : RootsMap) (add : Nat) :
    List (Sigma (fun _ : cipher.PubKey => FeedIndex)) →
    AList (fun _ : cipher.PubKey => FeedStat) →
    Option (AList (fun _ : cipher.PubKey => FeedStat))
  | [], feeds => some feeds
  | e :: rest, feeds =>
    match feedSpace rs add e.2.entries 0 with
    | none => none
    | some space => statFeeds rs add rest (assign feeds e.1 ⟨e.2.entries.length, space⟩)

/-- The method `Stat`.  The widths `len(cipher.SHA256{})` and
`len(cipher.Sig{})` of the `cipher` package are the parameters `hashLen` and
`sigLen`; `none` is the nil dereference of a missing root. -/
def Stat (hashLen sigLen : Nat) (d : memoryDB) : Option data.Stat :=
  if d.feeds.entries.length = 0 then
    some ⟨d.objects.entries.length,
      d.objects.entries.foldl (fun space e => space + e.2.length) 0, ∅⟩
  else
    match statFeeds d.roots (hashLen * 2 + sigLen + 8) d.feeds.entries ∅ with
    | none => none
    | some feeds =>
      some ⟨d.objects.entries.length,
        d.objects.entries.foldl (fun space e => space + e.2.length) 0, feeds⟩

end memoryDB

/-! ## The lock taken by each method -/

/-- The methods of `memoryDB`. -/
inductive Method where
  | Del | Get | Set | Add | IsExist | Range | RangeDelete
  | AddFeed | HasFeed | Feeds | DelFeed | AddRoot | LastRoot
  | RangeFeed | RangeFeedReverse | RangeFeedDelete
  | GetRoot | DelRootsBefore | Stat | Close
deriving DecidableEq, Repr

/-- The two ways a method holds `d.mx`: `RLock()` (shared) and `Lock()`
(exclusive). -/
inductive Access where
  | RLock
  | Lock
deriving DecidableEq, Repr

/-- The call each method makes on `d.mx`, as written in its body.  `Add`
holds the lock through `d.Set`, `AddRoot` takes it after its tests, and
`Close` takes none. -/
def Method.access : Method → Option Access
  | Method.Del => some Access.Lock
  | Method.Get => some Access.RLock
  | Method.Set => some Access.Lock
  | Method.Add => some Access.Lock
  | Method.IsExist => some Access.RLock
  | Method.Range => some Access.RLock
  | Method.RangeDelete => some Access.Lock
  | Method.AddFeed => some Access.Lock
  | Method.HasFeed => some Access.Lock
  | Method.Feeds => some Access.RLock
  | Method.DelFeed => some Access.Lock
  | Method.AddRoot => some Access.Lock
  | Method.LastRoot => some Access.RLock
  | Method.RangeFeed => some Access.RLock
  | Method.RangeFeedReverse => some Access.RLock
  | Method.RangeFeedDelete => some Access.Lock
  | Method.GetRoot => some Access.RLock
  | Method.DelRootsBefore => some Access.Lock
  | Method.Stat => some Access.RLock
  | Method.Close => none

/-- The rule of `sync.RWMutex`: two holders are admitted at once exactly when
both hold the mutex through `RLock`. -/
def Access.together : Access → Access → Bool
  | Access.RLock, Access.RLock => true
  | _, _ => false

/-- Two methods may run at the same time when the mutex admits both, a method
that takes no lock being always admitted. -/
def Method.mayOverlap (a b : Method) : Bool :=
  match a.access, b.access with
  | some x, some y => Access.together x y
  | _, _ => true

/-! ## Concrete records and stores used as instances -/

/-- The record of `oneRootStore`: sequence 1, payload `[4]`, hash 5. -/
def firstRecord : RootPack := ⟨[4], 1, 9, 5, 0⟩

/-- A second record with the same payload `[4]`, hence the same hash 5, at
sequence 2 and with another signature. -/
def samePayloadRecord : RootPack := ⟨[4], 2, 9, 5, 1⟩

/-- A store with one feed, 7, that indexes sequence number 1. -/
def oneRootStore : memoryDB :=
  run toySum NewMemoryDB [Op.AddRoot 7 firstRecord]

/-- The store reached by adding `firstRecord` (sequence 1) and then
`samePayloadRecord` (sequence 2, same payload and hash) to feed 7. -/
def twoSeqStore : memoryDB :=
  run toySum NewMemoryDB [Op.AddRoot 7 firstRecord, Op.AddRoot 7 samePayloadRecord]

/-- The store reached by adding `samePayloadRecord` (sequence 2) and then
`firstRecord` (sequence 1, same payload and hash) to feed 7. -/
def overwrittenStore : memoryDB :=
  run toySum NewMemoryDB [Op.AddRoot 7 samePayloadRecord, Op.AddRoot 7 firstRecord]

/-- A record at sequence 9 with payload `[9]`. -/
def recordNine : RootPack := ⟨[9], 9, 1, 10, 0⟩

/-- A record at sequence 2 with payload `[2]`. -/
def recordTwo : RootPack := ⟨[2], 2, 1, 3, 0⟩

/-- A record at sequence 5 with payload `[5]`. -/
def recordFive : RootPack := ⟨[5], 5, 1, 6, 0⟩

/-- The store reached by adding the records at sequences 9, 2 and 5, in that
order, to feed 7. -/
def threeRootStore : memoryDB :=
  run toySum NewMemoryDB
    [Op.AddRoot 7 recordNine, Op.AddRoot 7 recordTwo, Op.AddRoot 7 recordFive]

/-- A record at sequence 1 with payload `[1]`. -/
def recordOne : RootPack := ⟨[1], 1, 1, 2, 0⟩

/-- A record at sequence 7 with payload `[7]`. -/
def recordSeven : RootPack := ⟨[7], 7, 1, 8, 0⟩

/-- The store reached by adding the records at sequences 1, 2, 5 and 7 to
feed 7. -/
def fourRootStore : memoryDB :=
  run toySum NewMemoryDB
    [Op.AddRoot 7 recordOne, Op.AddRoot 7 recordTwo, Op.AddRoot 7 recordFive,
     Op.AddRoot 7 recordSeven]

/-- The store reached by adding the records at sequences 9, 2 and 5 to feed 7
and the record at sequence 1 to feed 8. -/
def twoFeedStore : memoryDB :=
  run toySum NewMemoryDB
    [Op.AddRoot 7 recordNine, Op.AddRoot 7 recordTwo, Op.AddRoot 7 recordFive,
     Op.AddRoot 8 recordOne]

/-- The store reached by adding `firstRecord` to feed 7 and to feed 8 and then
deleting feed 7. -/
def strandedStore : memoryDB :=
  run toySum NewMemoryDB [Op.AddRoot 7 firstRecord, Op.AddRoot 8 firstRecord, Op.DelFeed 7]

end data

/-! ## Lookups in the maps after an assignment or a deletion -/

namespace data
open memoryDB

section maps
variable {K : Type} {V : Type} [DecidableEq K]

theorem dlookup_kreplace (l : List (Sigma (fun _ : K => V))) (k k' : K) (v : V) :
    List.dlookup k' (List.kreplace k v l)
      = if k' = k then (List.dlookup k l).map (fun _ => v) else List.dlookup k' l := by
  induction l with
  | nil => simp [List.kreplace]
  | cons e l ih =>
    obtain ⟨a, b⟩ := e
    unfold List.kreplace at ih ⊢
    by_cases hka : k = a
    · subst hka
      by_cases hk : k' = k
      · subst hk
        simp [List.lookmap_cons_some, List.dlookup_cons_eq]
      · have e1 := List.dlookup_cons_ne (β := fun _ : K => V) l (Sigma.mk k b) hk
        have e2 := List.dlookup_cons_ne (β := fun _ : K => V) l (Sigma.mk k v) hk
        simp [List.lookmap_cons_some, hk, e1, e2]
    · have hne : (if k = a then some (Sigma.mk k v) else none :
          Option (Sigma (fun _ : K => V))) = none := by simp [hka]
      rw [List.lookmap_cons_none _ _ hne]
      by_cases hk : k' = k
      · subst hk
        have e1 := List.dlookup_cons_ne (β := fun _ : K => V) l (Sigma.mk a b) hka
        have e2 := List.dlookup_cons_ne (β := fun _ : K => V)
          (List.lookmap (fun s => if k' = s.fst then some ⟨k', v⟩ else none) l) (Sigma.mk a b) hka
        rw [e2, ih, e1]
      · by_cases hk2 : k' = a
        · subst hk2
          simp [List.dlookup_cons_eq, hk]
        · have e1 := List.dlookup_cons_ne (β := fun _ : K => V) l (Sigma.mk a b) hk2
          have e2 := List.dlookup_cons_ne (β := fun _ : K => V)
            (List.lookmap (fun s => if k = s.fst then some ⟨k, v⟩ else none) l) (Sigma.mk a b) hk2
          rw [e2, ih, e1, if_neg hk, if_neg hk]

theorem lookup_replace (m : AList (fun _ : K => V)) (k k' : K) (v : V) :
    (m.replace k v).lookup k'
      = if k' = k then (m.lookup k).map (fun _ => v) else m.lookup k' := by
  simp only [AList.lookup, AList.replace]
  exact dlookup_kreplace m.entries k k' v

theorem lookup_assign (m : AList (fun _ : K => V)) (k k' : K) (v : V) :
    (assign m k v).lookup k' = if k' = k then some v else m.lookup k' := by
  unfold assign
  by_cases hk : k ∈ m
  · rw [if_pos hk, lookup_replace]
    by_cases h : k' = k
    · obtain ⟨b, hb⟩ := Option.isSome_iff_exists.mp (AList.lookup_isSome.mpr hk)
      simp [h, hb]
    · simp [h]
  · rw [if_neg hk]
    by_cases h : k' = k
    · subst h; simp [AList.lookup_insert]
    · simp [h, AList.lookup_insert_ne h]

theorem erase_of_not_mem (m : AList (fun _ : K => V)) (k : K) (h : k ∉ m) : m.erase k = m := by
  apply AList.ext
  simp only [AList.erase]
  exact List.kerase_of_not_mem_keys h

theorem lookup_erase_eq (m : AList (fun _ : K => V)) (k k' : K) :
    (m.erase k).lookup k' = if k' = k then none else m.lookup k' := by
  by_cases h : k' = k
  · subst h; simp [AList.lookup_erase]
  · simp [h, AList.lookup_erase_ne h]

theorem replace_self (m : AList (fun _ : K => V)) (k : K) (v : V) (h : m.lookup k = some v) :
    m.replace k v = m := by
  apply AList.ext
  simp only [AList.replace]
  apply List.kreplace_self m.nodupKeys
  exact (List.mem_dlookup_iff m.nodupKeys).mp h

end maps
end data

/-! ## Objects: `Add` and `Get` -/

namespace data
open memoryDB

/-- C1: for every store state and payload `b`, `Add(b)` returns
`SumSHA256(b)`, and `Get` of the returned key right afterwards returns
`(b, true)`. -/
theorem C1_add_then_get (SumSHA256 : Bytes → cipher.SHA256) (d : memoryDB) (b : Bytes) :
    (d.Add SumSHA256 b).2 = SumSHA256 b ∧
    (d.Add SumSHA256 b).1.Get (d.Add SumSHA256 b).2 = some b := by
  refine ⟨rfl, ?_⟩
  simp [memoryDB.Add, Get, memoryDB.Set, lookup_assign]

/-! ## `AddRoot` -/

theorem testPrev_eq_none (pk : cipher.PubKey) (rp : RootPack) :
    testPrev pk rp = none ↔ ¬ ((rp.Seq = 0 ∧ rp.Prev ≠ 0) ∨ (rp.Seq ≠ 0 ∧ rp.Prev = 0)) := by
  unfold testPrev
  by_cases h0 : rp.Seq = 0 <;> by_cases hp : rp.Prev = 0 <;> simp [h0, hp]

theorem testRoot_eq_none (SumSHA256 : Bytes → cipher.SHA256) (pk : cipher.PubKey)
    (rp : RootPack) :
    testRoot SumSHA256 pk rp = none ↔
      ¬ ((rp.Seq = 0 ∧ rp.Prev ≠ 0) ∨ (rp.Seq ≠ 0 ∧ rp.Prev = 0) ∨
          rp.Hash ≠ SumSHA256 rp.Root) := by
  unfold testRoot testPrev
  by_cases h0 : rp.Seq = 0 <;> by_cases hp : rp.Prev = 0 <;>
    by_cases hh : rp.Hash = SumSHA256 rp.Root <;> simp [h0, hp, hh]

theorem testRoot_is_rootError (SumSHA256 : Bytes → cipher.SHA256) (pk : cipher.PubKey)
    (rp : RootPack) (err : Error) (h : testRoot SumSHA256 pk rp = some err) :
    ∃ descr, err = Error.rootError pk rp descr := by
  unfold testRoot testPrev at h
  by_cases h0 : rp.Seq = 0 <;> by_cases hp : rp.Prev = 0 <;>
    by_cases hh : rp.Hash = SumSHA256 rp.Root <;> simp [h0, hp, hh] at h <;>
    exact ⟨_, h.symm⟩

/-- The three outcomes of `AddRoot`, by the tests and the index of the feed. -/
theorem AddRoot_cases (SumSHA256 : Bytes → cipher.SHA256) (d : memoryDB) (pk : cipher.PubKey)
    (rp : RootPack) :
    (∃ descr, testRoot SumSHA256 pk rp = some (Error.rootError pk rp descr) ∧
        d.AddRoot SumSHA256 pk rp = (d, some (Error.rootError pk rp descr))) ∨
    (testRoot SumSHA256 pk rp = none ∧ rp.Seq ∈ d.feedIndex pk ∧
        d.AddRoot SumSHA256 pk rp = (d, some Error.ErrRootAlreadyExists)) ∨
    (testRoot SumSHA256 pk rp = none ∧ d.feeds.lookup pk = none ∧
        d.AddRoot SumSHA256 pk rp =
          ({ d with
             feeds := d.feeds.insert pk (AList.singleton rp.Seq rp.Hash)
             roots := assign d.roots rp.Hash rp }, none)) ∨
    (testRoot SumSHA256 pk rp = none ∧ rp.Seq ∉ d.feedIndex pk ∧
        d.feeds.lookup pk = some (d.feedIndex pk) ∧
        d.AddRoot SumSHA256 pk rp =
          ({ d with
             feeds := d.feeds.replace pk ((d.feedIndex pk).insert rp.Seq rp.Hash)
             roots := assign d.roots rp.Hash rp }, none)) := by
  cases ht : testRoot SumSHA256 pk rp with
  | some err =>
    obtain ⟨descr, rfl⟩ := testRoot_is_rootError SumSHA256 pk rp err ht
    exact Or.inl ⟨descr, rfl, by simp [AddRoot, ht]⟩
  | none =>
    right
    cases hf : d.feeds.lookup pk with
    | none => exact Or.inr (Or.inl ⟨rfl, rfl, by simp [AddRoot, ht, hf]⟩)
    | some roots =>
      have hidx : d.feedIndex pk = roots := by simp [feedIndex, hf]
      by_cases hs : rp.Seq ∈ roots
      · exact Or.inl ⟨rfl, hidx ▸ hs, by simp [AddRoot, ht, hf, hs]⟩
      · exact Or.inr (Or.inr ⟨rfl, hidx ▸ hs, by rw [hidx], by simp [AddRoot, ht, hf, hs, hidx]⟩)

end data

namespace data
open memoryDB

theorem mem_feedIndex (d : memoryDB) (pk : cipher.PubKey) (seq : Nat) :
    seq ∈ d.feedIndex pk ↔ ∃ roots, d.feeds.lookup pk = some roots ∧ seq ∈ roots := by
  unfold feedIndex
  cases hf : d.feeds.lookup pk with
  | none => simp [AList.not_mem_empty]
  | some roots => simp

/-- C2: `AddRoot(pk, r)` returns a malformed-root error exactly when
(`r.Seq = 0` and `r.Prev` is not the zero hash) or (`r.Seq != 0` and `r.Prev`
is the zero hash) or `r.Hash != SumSHA256(r.Root)`; it returns
`ErrRootAlreadyExists` exactly when `r` is well-formed and the feed `pk`
already indexes `r.Seq`; it returns no error in every other case, the case of
a feed that does not exist yet included. -/
theorem C2_addRoot_classification (SumSHA256 : Bytes → cipher.SHA256) (d : memoryDB)
    (pk : cipher.PubKey) (r : RootPack) :
    ((∃ pk0 r0 descr, (d.AddRoot SumSHA256 pk r).2 = some (Error.rootError pk0 r0 descr)) ↔
      ((r.Seq = 0 ∧ r.Prev ≠ 0) ∨ (r.Seq ≠ 0 ∧ r.Prev = 0) ∨ r.Hash ≠ SumSHA256 r.Root)) ∧
    ((d.AddRoot SumSHA256 pk r).2 = some Error.ErrRootAlreadyExists ↔
      (¬ ((r.Seq = 0 ∧ r.Prev ≠ 0) ∨ (r.Seq ≠ 0 ∧ r.Prev = 0) ∨ r.Hash ≠ SumSHA256 r.Root) ∧
        ∃ roots, d.feeds.lookup pk = some roots ∧ r.Seq ∈ roots)) ∧
    ((d.AddRoot SumSHA256 pk r).2 = none ↔
      (¬ ((r.Seq = 0 ∧ r.Prev ≠ 0) ∨ (r.Seq ≠ 0 ∧ r.Prev = 0) ∨ r.Hash ≠ SumSHA256 r.Root) ∧
        ¬ ∃ roots, d.feeds.lookup pk = some roots ∧ r.Seq ∈ roots)) ∧
    (d.feeds.lookup pk = none →
      ¬ ((r.Seq = 0 ∧ r.Prev ≠ 0) ∨ (r.Seq ≠ 0 ∧ r.Prev = 0) ∨ r.Hash ≠ SumSHA256 r.Root) →
      (d.AddRoot SumSHA256 pk r).2 = none) := by
  have hwf := testRoot_eq_none SumSHA256 pk r
  have hmem := mem_feedIndex d pk r.Seq
  have key : ((∃ pk0 r0 descr,
        (d.AddRoot SumSHA256 pk r).2 = some (Error.rootError pk0 r0 descr)) ↔
      ((r.Seq = 0 ∧ r.Prev ≠ 0) ∨ (r.Seq ≠ 0 ∧ r.Prev = 0) ∨ r.Hash ≠ SumSHA256 r.Root)) ∧
    ((d.AddRoot SumSHA256 pk r).2 = some Error.ErrRootAlreadyExists ↔
      (¬ ((r.Seq = 0 ∧ r.Prev ≠ 0) ∨ (r.Seq ≠ 0 ∧ r.Prev = 0) ∨ r.Hash ≠ SumSHA256 r.Root) ∧
        ∃ roots, d.feeds.lookup pk = some roots ∧ r.Seq ∈ roots)) ∧
    ((d.AddRoot SumSHA256 pk r).2 = none ↔
      (¬ ((r.Seq = 0 ∧ r.Prev ≠ 0) ∨ (r.Seq ≠ 0 ∧ r.Prev = 0) ∨ r.Hash ≠ SumSHA256 r.Root) ∧
        ¬ ∃ roots, d.feeds.lookup pk = some roots ∧ r.Seq ∈ roots)) := by
    rcases AddRoot_cases SumSHA256 d pk r with
      ⟨descr, ht, he⟩ | ⟨ht, hs, he⟩ | ⟨ht, hf, he⟩ | ⟨ht, hs, -, he⟩
    · have hbad : ¬ ¬ ((r.Seq = 0 ∧ r.Prev ≠ 0) ∨ (r.Seq ≠ 0 ∧ r.Prev = 0) ∨
          r.Hash ≠ SumSHA256 r.Root) := by
        intro hn
        rw [hwf.mpr hn] at ht
        cases ht
      rw [he]
      refine ⟨⟨fun _ => not_not.mp hbad, fun _ => ⟨pk, r, descr, rfl⟩⟩, ?_, ?_⟩
      · exact ⟨fun h => (by cases h), fun h => absurd h.1 hbad⟩
      · exact ⟨fun h => (by cases h), fun h => absurd h.1 hbad⟩
    · have hgood := hwf.mp ht
      rw [he]
      refine ⟨⟨fun h => ?_, fun h => absurd h hgood⟩, ?_, ?_⟩
      · obtain ⟨_, _, _, h⟩ := h
        cases h
      · exact ⟨fun _ => ⟨hgood, hmem.mp hs⟩, fun _ => rfl⟩
      · exact ⟨fun h => (by cases h), fun h => absurd (hmem.mp hs) h.2⟩
    · have hgood := hwf.mp ht
      have hnot : ¬ ∃ roots, d.feeds.lookup pk = some roots ∧ r.Seq ∈ roots := by
        rintro ⟨roots, h1, -⟩
        rw [hf] at h1
        cases h1
      rw [he]
      refine ⟨⟨fun h => ?_, fun h => absurd h hgood⟩, ?_, ?_⟩
      · obtain ⟨_, _, _, h⟩ := h
        cases h
      · exact ⟨fun h => (by cases h), fun h => absurd h.2 hnot⟩
      · exact ⟨fun _ => ⟨hgood, hnot⟩, fun _ => rfl⟩
    · have hgood := hwf.mp ht
      have hnot : ¬ ∃ roots, d.feeds.lookup pk = some roots ∧ r.Seq ∈ roots :=
        fun h => hs (hmem.mpr h)
      rw [he]
      refine ⟨⟨fun h => ?_, fun h => absurd h hgood⟩, ?_, ?_⟩
      · obtain ⟨_, _, _, h⟩ := h
        cases h
      · exact ⟨fun h => (by cases h), fun h => absurd h.2 hnot⟩
      · exact ⟨fun _ => ⟨hgood, hnot⟩, fun _ => rfl⟩
  refine ⟨key.1, key.2.1, key.2.2, fun hf hgood => key.2.2.mpr ⟨hgood, ?_⟩⟩
  rintro ⟨roots, h1, -⟩
  rw [hf] at h1
  cases h1

/-- A concrete instance of C2 for a feed that does not exist yet: the
well-formed record at sequence 0 is accepted by the empty store. -/
theorem C2_addRoot_classification_witness :
    (NewMemoryDB.AddRoot toySum 7 ⟨[4], 0, 0, 5, 0⟩).2 = none :=
  (C2_addRoot_classification toySum NewMemoryDB 7 ⟨[4], 0, 0, 5, 0⟩).2.2.2
    (by decide) (by decide)

/-- C3: whenever `AddRoot(pk, r)` returns an error, the store is the one
before the call: objects, roots and the feed index are the same, so no entry
for `r.Hash` appears in roots, none for `r.Seq` in the index, an absent feed
is not created and the record indexed at `r.Seq` is untouched. -/
theorem C3_addRoot_error_unchanged (SumSHA256 : Bytes → cipher.SHA256) (d : memoryDB)
    (pk : cipher.PubKey) (r : RootPack) (herr : (d.AddRoot SumSHA256 pk r).2 ≠ none) :
    (d.AddRoot SumSHA256 pk r).1 = d ∧
    (d.AddRoot SumSHA256 pk r).1.objects = d.objects ∧
    (d.AddRoot SumSHA256 pk r).1.roots = d.roots ∧
    (d.AddRoot SumSHA256 pk r).1.feeds = d.feeds ∧
    (d.AddRoot SumSHA256 pk r).1.GetRoot r.Hash = d.GetRoot r.Hash ∧
    (d.AddRoot SumSHA256 pk r).1.HasFeed pk = d.HasFeed pk ∧
    ((d.AddRoot SumSHA256 pk r).1.feedIndex pk).lookup r.Seq = (d.feedIndex pk).lookup r.Seq := by
  have h : (d.AddRoot SumSHA256 pk r).1 = d := by
    rcases AddRoot_cases SumSHA256 d pk r with
      ⟨descr, -, he⟩ | ⟨-, -, he⟩ | ⟨-, -, he⟩ | ⟨-, -, -, he⟩
    · rw [he]
    · rw [he]
    · rw [he] at herr; exact absurd rfl herr
    · rw [he] at herr; exact absurd rfl herr
  rw [h]
  exact ⟨rfl, rfl, rfl, rfl, rfl, rfl, rfl⟩

/-- A concrete instance of C3: a second record at sequence 1 of feed 7 is
refused and the store stays as it was. -/
theorem C3_addRoot_error_unchanged_witness :
    (oneRootStore.AddRoot toySum 7 ⟨[6], 1, 9, 7, 0⟩).2 = some Error.ErrRootAlreadyExists ∧
    (oneRootStore.AddRoot toySum 7 ⟨[6], 1, 9, 7, 0⟩).1 = oneRootStore :=
  ⟨by decide,
   (C3_addRoot_error_unchanged toySum oneRootStore 7 ⟨[6], 1, 9, 7, 0⟩ (by decide)).1⟩

end data

namespace data
open memoryDB

theorem feedIndex_of_lookup (d : memoryDB) (pk : cipher.PubKey) (roots : FeedIndex)
    (h : d.feeds.lookup pk = some roots) : d.feedIndex pk = roots := by
  simp [feedIndex, h]

theorem feedIndex_of_none (d : memoryDB) (pk : cipher.PubKey)
    (h : d.feeds.lookup pk = none) : d.feedIndex pk = ∅ := by
  simp [feedIndex, h]

theorem lookup_singleton {K : Type} {V : Type} [DecidableEq K] (a k : K) (b : V) :
    (AList.singleton a b : AList (fun _ : K => V)).lookup k = if k = a then some b else none := by
  rw [← AList.insert_empty]
  by_cases hq : k = a
  · subst hq
    rw [AList.lookup_insert, if_pos rfl]
  · rw [AList.lookup_insert_ne hq, if_neg hq, AList.lookup_empty]

theorem feedIndex_mk (o : AList (fun _ : cipher.SHA256 => Bytes)) (rs : RootsMap)
    (f : AList (fun _ : cipher.PubKey => FeedIndex)) (pk : cipher.PubKey) :
    feedIndex ⟨o, rs, f⟩ pk = (f.lookup pk).getD ∅ := rfl

/-- C4: whenever `AddRoot(pk, r)` returns no error, afterwards `HasFeed(pk)`
is true, the index of `pk` is the previous index of `pk` (empty for an absent
feed) plus the single new entry `r.Seq -> r.Hash`, `GetRoot(r.Hash)` returns
`(r, true)` with every field of `r`, and every other feed is as before. -/
theorem C4_addRoot_success (SumSHA256 : Bytes → cipher.SHA256) (d : memoryDB)
    (pk : cipher.PubKey) (r : RootPack) (hok : (d.AddRoot SumSHA256 pk r).2 = none) :
    (d.AddRoot SumSHA256 pk r).1.HasFeed pk = true ∧
    r.Seq ∉ d.feedIndex pk ∧
    (∀ seq, ((d.AddRoot SumSHA256 pk r).1.feedIndex pk).lookup seq =
      if seq = r.Seq then some r.Hash else (d.feedIndex pk).lookup seq) ∧
    (d.AddRoot SumSHA256 pk r).1.GetRoot r.Hash = some r ∧
    (∀ pk0, pk0 ≠ pk →
      (d.AddRoot SumSHA256 pk r).1.feeds.lookup pk0 = d.feeds.lookup pk0 ∧
      (d.AddRoot SumSHA256 pk r).1.feedIndex pk0 = d.feedIndex pk0 ∧
      (d.AddRoot SumSHA256 pk r).1.HasFeed pk0 = d.HasFeed pk0) := by
  rcases AddRoot_cases SumSHA256 d pk r with
    ⟨descr, -, he⟩ | ⟨-, -, he⟩ | ⟨-, hf, he⟩ | ⟨-, hs, hf, he⟩
  · rw [he] at hok; cases hok
  · rw [he] at hok; cases hok
  · rw [he]
    have hidx := feedIndex_of_none d pk hf
    refine ⟨?_, ?_, ?_, ?_, ?_⟩
    · simp [HasFeed, AList.lookup_insert]
    · rw [hidx]; exact AList.not_mem_empty _
    · intro seq
      have h1 : feedIndex { d with
          feeds := d.feeds.insert pk (AList.singleton r.Seq r.Hash)
          roots := assign d.roots r.Hash r } pk = AList.singleton r.Seq r.Hash := by
        simp [feedIndex, AList.lookup_insert]
      rw [h1, hidx, lookup_singleton, AList.lookup_empty]
    · simp [GetRoot, lookup_assign]
    · intro pk0 hne
      have h1 : (d.feeds.insert pk (AList.singleton r.Seq r.Hash)).lookup pk0 =
          d.feeds.lookup pk0 := AList.lookup_insert_ne hne
      refine ⟨h1, ?_, ?_⟩
      · rw [feedIndex_mk, h1]; rfl
      · show (AList.lookup pk0 _).isSome = _
        rw [h1]; rfl
  · rw [he]
    have h0 : (d.feeds.replace pk ((d.feedIndex pk).insert r.Seq r.Hash)).lookup pk =
        some ((d.feedIndex pk).insert r.Seq r.Hash) := by
      rw [lookup_replace, if_pos rfl, hf]; rfl
    refine ⟨?_, hs, ?_, ?_, ?_⟩
    · simp [HasFeed, h0]
    · intro seq
      have h1 : feedIndex { d with
          feeds := d.feeds.replace pk ((d.feedIndex pk).insert r.Seq r.Hash)
          roots := assign d.roots r.Hash r } pk = (d.feedIndex pk).insert r.Seq r.Hash := by
        rw [feedIndex_mk, h0]; rfl
      rw [h1]
      by_cases hq : seq = r.Seq
      · subst hq; simp [AList.lookup_insert]
      · simp [hq, AList.lookup_insert_ne hq]
    · simp [GetRoot, lookup_assign]
    · intro pk0 hne
      have h1 : (d.feeds.replace pk ((d.feedIndex pk).insert r.Seq r.Hash)).lookup pk0 =
          d.feeds.lookup pk0 := by
        rw [lookup_replace, if_neg hne]
      refine ⟨h1, ?_, ?_⟩
      · rw [feedIndex_mk, h1]; rfl
      · show (AList.lookup pk0 _).isSome = _
        rw [h1]; rfl

/-- A concrete instance of C4: a record at sequence 2 is added to the feed 7
of `oneRootStore` and is read back under its hash. -/
theorem C4_addRoot_success_witness :
    (oneRootStore.AddRoot toySum 7 ⟨[6], 2, 5, 7, 3⟩).2 = none ∧
    (oneRootStore.AddRoot toySum 7 ⟨[6], 2, 5, 7, 3⟩).1.GetRoot 7 = some ⟨[6], 2, 5, 7, 3⟩ :=
  ⟨by decide, (C4_addRoot_success toySum oneRootStore 7 ⟨[6], 2, 5, 7, 3⟩ (by decide)).2.2.2.1⟩

/-- C5, counterexample: `GetRoot(5)` returns `firstRecord` in the store
reached by `AddRoot(7, firstRecord)`; the call `AddRoot(8, samePayloadRecord)`
succeeds and `GetRoot(5)` then returns `samePayloadRecord`, whose `Seq` and
`Sig` differ. -/
theorem C5_counterexample :
    oneRootStore.GetRoot 5 = some firstRecord ∧
    (oneRootStore.AddRoot toySum 8 samePayloadRecord).2 = none ∧
    (oneRootStore.AddRoot toySum 8 samePayloadRecord).1.GetRoot 5 = some samePayloadRecord ∧
    (oneRootStore.AddRoot toySum 8 samePayloadRecord).1.GetRoot 5 ≠ some firstRecord := by
  decide

/-- C5, as amended: for every hash `h` with `GetRoot(h) = (r0, true)` before
a call `AddRoot(pk, r)`, `GetRoot(h)` still returns `(r0, true)` after the
call when the call fails or `r.Hash` is not `h`; when the call succeeds with
`r.Hash = h`, `GetRoot(h)` returns `(r, true)`: the stored record is replaced
by the record just added. -/
theorem C5_getRoot_after_addRoot (SumSHA256 : Bytes → cipher.SHA256) (d : memoryDB)
    (pk : cipher.PubKey) (r : RootPack) (h : cipher.SHA256) (r0 : RootPack)
    (hget : d.GetRoot h = some r0) :
    (((d.AddRoot SumSHA256 pk r).2 ≠ none ∨ r.Hash ≠ h) →
      (d.AddRoot SumSHA256 pk r).1.GetRoot h = some r0) ∧
    (((d.AddRoot SumSHA256 pk r).2 = none ∧ r.Hash = h) →
      (d.AddRoot SumSHA256 pk r).1.GetRoot h = some r) := by
  rcases AddRoot_cases SumSHA256 d pk r with
    ⟨descr, -, he⟩ | ⟨-, -, he⟩ | ⟨-, -, he⟩ | ⟨-, -, -, he⟩
  · rw [he]
    exact ⟨fun _ => hget, fun h1 => by cases h1.1⟩
  · rw [he]
    exact ⟨fun _ => hget, fun h1 => by cases h1.1⟩
  · rw [he]
    refine ⟨fun h1 => ?_, fun h1 => ?_⟩
    · rcases h1 with h1 | h1
      · exact absurd rfl h1
      · have hne : h ≠ r.Hash := fun e => h1 e.symm
        simpa [GetRoot, lookup_assign, hne] using hget
    · simp [GetRoot, lookup_assign, h1.2.symm]
  · rw [he]
    refine ⟨fun h1 => ?_, fun h1 => ?_⟩
    · rcases h1 with h1 | h1
      · exact absurd rfl h1
      · have hne : h ≠ r.Hash := fun e => h1 e.symm
        simpa [GetRoot, lookup_assign, hne] using hget
    · simp [GetRoot, lookup_assign, h1.2.symm]

/-- A concrete instance of the amended C5, on the two branches: a record with
another hash leaves `GetRoot(5)` as it was, and an accepted record with hash 5
takes the place of the stored one. -/
theorem C5_getRoot_after_addRoot_witness :
    oneRootStore.GetRoot 5 = some firstRecord ∧
    (oneRootStore.AddRoot toySum 7 ⟨[6], 2, 5, 7, 3⟩).1.GetRoot 5 = some firstRecord ∧
    (oneRootStore.AddRoot toySum 7 samePayloadRecord).1.GetRoot 5 = some samePayloadRecord :=
  ⟨by decide,
   (C5_getRoot_after_addRoot toySum oneRootStore 7 ⟨[6], 2, 5, 7, 3⟩ 5 firstRecord
      (by decide)).1 (Or.inr (by decide)),
   (C5_getRoot_after_addRoot toySum oneRootStore 7 samePayloadRecord 5 firstRecord
      (by decide)).2 ⟨by decide, by decide⟩⟩

end data

/-! ## Sorting the sequence numbers and visiting the records -/

namespace data
open memoryDB

theorem sortOrder_perm (o : List Nat) : (sortOrder o).Perm o :=
  List.perm_insertionSort _ o

theorem sortOrder_sorted (o : List Nat) : (sortOrder o).Sorted (fun a b => a ≤ b) :=
  List.sorted_insertionSort (fun a b : Nat => a ≤ b) o

theorem sortOrder_strict (o : List Nat) (hnd : o.Nodup) :
    (sortOrder o).Sorted (fun a b => a < b) := by
  have hs := sortOrder_sorted o
  have hn : (sortOrder o).Nodup := (sortOrder_perm o).nodup_iff.mpr hnd
  exact List.Sorted.lt_of_le hs hn

theorem mem_sortOrder (o : List Nat) (s : Nat) : s ∈ sortOrder o ↔ s ∈ o :=
  (sortOrder_perm o).mem_iff

/-- The model of `sort.Sort` is the only possible one: every ascending
rearrangement of `o` is `sortOrder o`, whatever the sorting algorithm. -/
theorem sortOrder_unique (o l : List Nat) (hperm : l.Perm o)
    (hsorted : l.Sorted (fun a b => a ≤ b)) : l = sortOrder o :=
  List.eq_of_perm_of_sorted (hperm.trans (sortOrder_perm o).symm) hsorted (sortOrder_sorted o)

/-- Sorting with the flipped `Less` gives the ascending order read backwards. -/
theorem sortReverse_eq (o : List Nat) : sortReverse o = (sortOrder o).reverse := by
  haveI hanti : IsAntisymm Nat (fun a b => b ≤ a) := ⟨fun a b h1 h2 => le_antisymm h2 h1⟩
  haveI htot : IsTotal Nat (fun a b => b ≤ a) := ⟨fun a b => le_total b a⟩
  haveI htr : IsTrans Nat (fun a b => b ≤ a) := ⟨fun a b c h1 h2 => le_trans h2 h1⟩
  have hp : (sortReverse o).Perm (sortOrder o).reverse :=
    (List.perm_insertionSort _ o).trans
      ((sortOrder_perm o).symm.trans (List.reverse_perm _).symm)
  have h1 : (sortReverse o).Sorted (fun a b => b ≤ a) :=
    List.sorted_insertionSort (fun a b : Nat => b ≤ a) o
  have h2 : (sortOrder o).reverse.Sorted (fun a b => b ≤ a) :=
    List.pairwise_reverse.mpr (sortOrder_sorted o)
  exact List.eq_of_perm_of_sorted hp h1 h2

/-- A visitor that never stops is handed the stored record of every sequence
number of the list, in the order of the list, when each has one. -/
theorem visitLoop_all (rs : RootsMap) (roots : FeedIndex) (fn : RootPack → Bool)
    (hfn : ∀ rp, fn rp = false) (l : List Nat)
    (hstored : ∀ seq ∈ l, (rs.lookup (hashAt roots seq)).isSome) :
    ∃ recs, visitLoop rs roots fn l = some recs ∧
      recs.map some = l.map (fun seq => rs.lookup (hashAt roots seq)) := by
  induction l with
  | nil => exact ⟨[], rfl, rfl⟩
  | cons seq rest ih =>
    obtain ⟨recs, h1, h2⟩ := ih (fun s hs => hstored s (List.mem_cons_of_mem _ hs))
    obtain ⟨rp, hrp⟩ := Option.isSome_iff_exists.mp (hstored seq (List.mem_cons_self _ _))
    refine ⟨rp :: recs, ?_, ?_⟩
    · simp [visitLoop, hrp, hfn, h1]
    · simp [hrp, h2]

theorem map_some_injective {α : Type} (a b : List α) (h : a.map some = b.map some) : a = b :=
  List.map_injective_iff.mpr (Option.some_injective α) h

theorem maxSeq_ge_init (l : List Nat) (m : Nat) : m ≤ maxSeq l m := by
  induction l generalizing m with
  | nil => exact le_refl m
  | cons a l ih =>
    show m ≤ maxSeq l (if m < a then a else m)
    by_cases h : m < a
    · rw [if_pos h]; exact le_trans (le_of_lt h) (ih a)
    · rw [if_neg h]; exact ih m

theorem maxSeq_ge_mem (l : List Nat) (m : Nat) : ∀ s ∈ l, s ≤ maxSeq l m := by
  induction l generalizing m with
  | nil => intro s hs; cases hs
  | cons a l ih =>
    intro s hs
    show s ≤ maxSeq l (if m < a then a else m)
    rcases List.mem_cons.mp hs with rfl | hs
    · by_cases h : m < s
      · rw [if_pos h]; exact maxSeq_ge_init l s
      · rw [if_neg h]; exact le_trans (not_lt.mp h) (maxSeq_ge_init l m)
    · exact ih _ s hs

theorem maxSeq_mem_or_init (l : List Nat) (m : Nat) : maxSeq l m ∈ l ∨ maxSeq l m = m := by
  induction l generalizing m with
  | nil => exact Or.inr rfl
  | cons a l ih =>
    show maxSeq l (if m < a then a else m) ∈ a :: l ∨ maxSeq l (if m < a then a else m) = m
    by_cases h : m < a
    · rw [if_pos h]
      rcases ih a with h1 | h1
      · exact Or.inl (List.mem_cons_of_mem _ h1)
      · rw [h1]; exact Or.inl (List.mem_cons_self _ _)
    · rw [if_neg h]
      rcases ih m with h1 | h1
      · exact Or.inl (List.mem_cons_of_mem _ h1)
      · exact Or.inr h1

/-- Started at 0 on a non-empty list, the loop of `LastRoot` ends on the
greatest element of the list. -/
theorem maxSeq_zero_mem (l : List Nat) (hne : l ≠ []) : maxSeq l 0 ∈ l := by
  rcases maxSeq_mem_or_init l 0 with h | h
  · exact h
  · cases l with
    | nil => exact absurd rfl hne
    | cons a l =>
      have ha : a ≤ maxSeq (a :: l) 0 := maxSeq_ge_mem (a :: l) 0 a (List.mem_cons_self _ _)
      rw [h] at ha
      have : a = 0 := Nat.le_zero.mp ha
      rw [h, this]
      exact List.mem_cons_self _ _

end data

/-! ## `RangeFeed`, `RangeFeedReverse` and `LastRoot` -/

namespace data
open memoryDB

theorem RangeFeed_eq_visitLoop (d : memoryDB) (pk : cipher.PubKey) (fn : RootPack → Bool) :
    d.RangeFeed pk fn = visitLoop d.roots (d.feedIndex pk) fn (sortOrder (d.feedIndex pk).keys) := by
  unfold RangeFeed
  by_cases h : (d.feedIndex pk).keys.length = 0
  · have hk : (d.feedIndex pk).keys = [] := List.length_eq_zero.mp h
    simp [hk, sortOrder, visitLoop]
  · simp [h]

theorem RangeFeedReverse_eq_visitLoop (d : memoryDB) (pk : cipher.PubKey)
    (fn : RootPack → Bool) :
    d.RangeFeedReverse pk fn =
      visitLoop d.roots (d.feedIndex pk) fn (sortReverse (d.feedIndex pk).keys) := by
  unfold RangeFeedReverse
  by_cases h : (d.feedIndex pk).keys.length = 0
  · have hk : (d.feedIndex pk).keys = [] := List.length_eq_zero.mp h
    simp [hk, sortReverse, visitLoop]
  · simp [h]

/-- C6, counterexample: `twoSeqStore` is reachable, its feed 7 indexes the
sequence numbers 1 and 2, and `RangeFeed` hands the visitor the same record
twice, with `Seq` fields 2, 2: no record for sequence 1 and no strictly
ascending order.  The two records added have one payload, hence one hash
under any hash function (`rangeFeed_same_payload`). -/
theorem C6_counterexample :
    Reachable toySum twoSeqStore ∧
    (twoSeqStore.feedIndex 7).keys = [2, 1] ∧
    twoSeqStore.RangeFeed 7 (fun _ => false) = some [samePayloadRecord, samePayloadRecord] ∧
    (twoSeqStore.RangeFeed 7 (fun _ => false)).map (List.map RootPack.Seq) = some [2, 2] ∧
    ¬ List.Sorted (fun a b => a < b) [2, 2] :=
  ⟨⟨[Op.AddRoot 7 firstRecord, Op.AddRoot 7 samePayloadRecord], rfl⟩,
   by decide, by decide, by decide, by decide⟩

/-- C6, as amended: for every store state in which every sequence number
indexed by feed `pk` has its hash present in the roots map, `RangeFeed(pk,
visit)` with a visitor that never asks to stop visits exactly one record per
indexed sequence number, the record stored under the hash of that sequence
number, in strictly ascending order of the indexed sequence numbers; the
`Seq` fields of the visited records are those sequence numbers, strictly
ascending, when each stored record carries the sequence number it is indexed
under. -/
theorem C6_rangeFeed_ascending (d : memoryDB) (pk : cipher.PubKey) (fn : RootPack → Bool)
    (hstored : ∀ seq ∈ (d.feedIndex pk).keys,
      (d.roots.lookup (hashAt (d.feedIndex pk) seq)).isSome)
    (hfn : ∀ rp, fn rp = false) :
    ∃ recs, d.RangeFeed pk fn = some recs ∧
      recs.map some =
        (sortOrder (d.feedIndex pk).keys).map
          (fun seq => d.roots.lookup (hashAt (d.feedIndex pk) seq)) ∧
      (sortOrder (d.feedIndex pk).keys).Sorted (fun a b => a < b) ∧
      (sortOrder (d.feedIndex pk).keys).Perm (d.feedIndex pk).keys ∧
      (d.feedIndex pk).keys.Nodup ∧
      recs.length = (d.feedIndex pk).keys.length ∧
      ((∀ seq ∈ (d.feedIndex pk).keys, ∀ rp,
          d.roots.lookup (hashAt (d.feedIndex pk) seq) = some rp → rp.Seq = seq) →
        recs.map RootPack.Seq = sortOrder (d.feedIndex pk).keys ∧
        (recs.map RootPack.Seq).Sorted (fun a b => a < b)) := by
  have hnd : (d.feedIndex pk).keys.Nodup := (d.feedIndex pk).keys_nodup
  obtain ⟨recs, h1, h2⟩ := visitLoop_all d.roots (d.feedIndex pk) fn hfn
    (sortOrder (d.feedIndex pk).keys)
    (fun seq hs => hstored seq ((mem_sortOrder _ seq).mp hs))
  have hlen : recs.length = (d.feedIndex pk).keys.length := by
    have := congrArg List.length h2
    simp only [List.length_map] at this
    rw [this]
    exact (sortOrder_perm _).length_eq
  refine ⟨recs, (RangeFeed_eq_visitLoop d pk fn).trans h1, h2,
    sortOrder_strict _ hnd, sortOrder_perm _, hnd, hlen, fun hseq => ?_⟩
  have hmap : recs.map RootPack.Seq = sortOrder (d.feedIndex pk).keys := by
    have key : ∀ (l : List Nat) (rs : List RootPack),
        (∀ seq ∈ l, ∀ rp, d.roots.lookup (hashAt (d.feedIndex pk) seq) = some rp →
          rp.Seq = seq) →
        rs.map some = l.map (fun seq => d.roots.lookup (hashAt (d.feedIndex pk) seq)) →
        rs.map RootPack.Seq = l := by
      intro l
      induction l with
      | nil =>
        intro rs _ h
        cases rs with
        | nil => rfl
        | cons a t => cases h
      | cons s l ih =>
        intro rs hq h
        cases rs with
        | nil => cases h
        | cons a t =>
          simp only [List.map_cons, List.cons.injEq] at h
          have ha : a.Seq = s := hq s (List.mem_cons_self _ _) a h.1.symm
          have ht := ih t (fun seq hs => hq seq (List.mem_cons_of_mem _ hs)) h.2
          simp [ha, ht]
    exact key _ recs (fun seq hs => hseq seq ((mem_sortOrder _ seq).mp hs)) h2
  exact ⟨hmap, hmap ▸ sortOrder_strict _ hnd⟩

/-- A concrete instance of the amended C6: records added at sequences 9, 2, 5
in that order are visited as 2, 5, 9. -/
theorem C6_rangeFeed_ascending_witness :
    threeRootStore.RangeFeed 7 (fun _ => false) = some [recordTwo, recordFive, recordNine] ∧
    ∃ recs, threeRootStore.RangeFeed 7 (fun _ => false) = some recs ∧
      recs.map RootPack.Seq = [2, 5, 9] := by
  refine ⟨by decide, ?_⟩
  obtain ⟨recs, h1, -, -, -, -, -, h2⟩ :=
    C6_rangeFeed_ascending threeRootStore 7 (fun _ => false) (by decide) (fun _ => rfl)
  exact ⟨recs, h1, (h2 (by decide)).1.trans (by decide)⟩

/-- C7: in a store state in which every sequence number indexed by feed `pk`
has its hash present in the roots map, and with visitors that never ask to
stop, the records visited by `RangeFeedReverse` are the records visited by
`RangeFeed` read backwards. -/
theorem C7_rangeFeedReverse (d : memoryDB) (pk : cipher.PubKey) (f g : RootPack → Bool)
    (hstored : ∀ seq ∈ (d.feedIndex pk).keys,
      (d.roots.lookup (hashAt (d.feedIndex pk) seq)).isSome)
    (hf : ∀ rp, f rp = false) (hg : ∀ rp, g rp = false) :
    ∃ recs, d.RangeFeed pk f = some recs ∧ d.RangeFeedReverse pk g = some recs.reverse := by
  obtain ⟨recs, h1, h2⟩ := visitLoop_all d.roots (d.feedIndex pk) f hf
    (sortOrder (d.feedIndex pk).keys)
    (fun seq hs => hstored seq ((mem_sortOrder _ seq).mp hs))
  obtain ⟨back, h3, h4⟩ := visitLoop_all d.roots (d.feedIndex pk) g hg
    (sortReverse (d.feedIndex pk).keys)
    (fun seq hs => hstored seq (by
      rw [sortReverse_eq, List.mem_reverse] at hs
      exact (mem_sortOrder _ seq).mp hs))
  have hback : back = recs.reverse := by
    apply map_some_injective
    rw [h4, sortReverse_eq, List.map_reverse, ← h2, List.map_reverse]
  refine ⟨recs, (RangeFeed_eq_visitLoop d pk f).trans h1, ?_⟩
  rw [RangeFeedReverse_eq_visitLoop, h3, hback]

/-- A concrete instance of C7: records added at sequences 9, 2, 5 are visited
as 9, 5, 2 by `RangeFeedReverse`. -/
theorem C7_rangeFeedReverse_witness :
    threeRootStore.RangeFeedReverse 7 (fun _ => false)
      = some [recordNine, recordFive, recordTwo] ∧
    ∃ recs, threeRootStore.RangeFeed 7 (fun _ => false) = some recs ∧
      threeRootStore.RangeFeedReverse 7 (fun _ => false) = some recs.reverse :=
  ⟨by decide,
   C7_rangeFeedReverse threeRootStore 7 (fun _ => false) (fun _ => false) (by decide)
     (fun _ => rfl) (fun _ => rfl)⟩

end data

namespace data
open memoryDB

theorem feedIndex_keys_of_not_hasFeed (d : memoryDB) (pk : cipher.PubKey)
    (h : d.HasFeed pk = false) : (d.feedIndex pk).keys = [] := by
  unfold HasFeed at h
  have hn : d.feeds.lookup pk = none := by
    cases hl : d.feeds.lookup pk with
    | none => rfl
    | some v => rw [hl] at h; cases h
  rw [feedIndex_of_none d pk hn]
  rfl

/-- C8, counterexample: `overwrittenStore` is reachable, its feed 7 indexes
the sequence numbers 1 and 2, and `LastRoot(7)` returns a record whose `Seq`
is 1, not the maximum 2.  The two records added have one payload, hence one
hash under any hash function (`lastRoot_same_payload`). -/
theorem C8_counterexample :
    Reachable toySum overwrittenStore ∧
    (overwrittenStore.feedIndex 7).keys = [1, 2] ∧
    overwrittenStore.LastRoot 7 = some (some firstRecord) ∧
    firstRecord.Seq = 1 :=
  ⟨⟨[Op.AddRoot 7 samePayloadRecord, Op.AddRoot 7 firstRecord], rfl⟩,
   by decide, by decide, rfl⟩

/-- C8, as amended: for every store state and every feed `pk`, `LastRoot(pk)`
returns found = false exactly when the feed is absent or indexes no sequence
number; otherwise, with `m` the maximum sequence number indexed by the feed,
when the hash indexed at `m` is present in the roots map it returns
found = true and the record stored under that hash (a record whose `Seq` is
`m` when the stored record carries the sequence number it is indexed
under). -/
theorem C8_lastRoot (d : memoryDB) (pk : cipher.PubKey) :
    (d.LastRoot pk = some none ↔ (d.HasFeed pk = false ∨ (d.feedIndex pk).keys = [])) ∧
    ((d.feedIndex pk).keys ≠ [] →
      maxSeq (d.feedIndex pk).keys 0 ∈ (d.feedIndex pk).keys ∧
      (∀ seq ∈ (d.feedIndex pk).keys, seq ≤ maxSeq (d.feedIndex pk).keys 0) ∧
      ∀ rp, d.roots.lookup (hashAt (d.feedIndex pk) (maxSeq (d.feedIndex pk).keys 0)) = some rp →
        d.LastRoot pk = some (some rp)) := by
  constructor
  · constructor
    · intro h
      right
      by_contra hne
      have hlen : ¬ (d.feedIndex pk).keys.length = 0 := fun h0 => hne (List.length_eq_zero.mp h0)
      unfold LastRoot at h
      simp only [hlen, if_false] at h
      cases hl : d.roots.lookup (hashAt (d.feedIndex pk) (maxSeq (d.feedIndex pk).keys 0)) with
      | none => rw [hl] at h; cases h
      | some rp => rw [hl] at h; cases h
    · intro h
      have hk : (d.feedIndex pk).keys = [] := by
        rcases h with h | h
        · exact feedIndex_keys_of_not_hasFeed d pk h
        · exact h
      unfold LastRoot
      simp [hk]
  · intro hne
    refine ⟨maxSeq_zero_mem _ hne, maxSeq_ge_mem _ 0, fun rp hrp => ?_⟩
    have hlen : ¬ (d.feedIndex pk).keys.length = 0 := fun h0 => hne (List.length_eq_zero.mp h0)
    unfold LastRoot
    simp only [hlen, if_false, hrp]

/-- A concrete instance of the amended C8: for the feed with records added at
sequences 9, 2, 5, `LastRoot` returns the record at sequence 9. -/
theorem C8_lastRoot_witness :
    (threeRootStore.feedIndex 7).keys ≠ [] ∧
    threeRootStore.LastRoot 7 = some (some recordNine) ∧
    recordNine.Seq = maxSeq (threeRootStore.feedIndex 7).keys 0 :=
  ⟨by decide,
   ((C8_lastRoot threeRootStore 7).2 (by decide)).2.2 recordNine (by decide),
   by decide⟩

end data

/-! ## `DelRootsBefore` -/

namespace data
open memoryDB

theorem hashAt_erase_ne (roots : FeedIndex) (s t : Nat) (h : t ≠ s) :
    hashAt (roots.erase s) t = hashAt roots t := by
  unfold hashAt
  rw [AList.lookup_erase_ne h]

/-- The trimming loop over pairwise distinct sequence numbers: these leave the
index, and their hashes leave the roots map; nothing else changes. -/
theorem trimLoop_spec (l : List Nat) (hnd : l.Nodup) (rs : RootsMap) (roots : FeedIndex) :
    (∀ s, (trimLoop l (rs, roots)).2.lookup s = if s ∈ l then none else roots.lookup s) ∧
    (∀ h, (∃ s ∈ l, hashAt roots s = h) → (trimLoop l (rs, roots)).1.lookup h = none) ∧
    (∀ h, (¬ ∃ s ∈ l, hashAt roots s = h) →
      (trimLoop l (rs, roots)).1.lookup h = rs.lookup h) := by
  induction l generalizing rs roots with
  | nil =>
    refine ⟨fun s => by simp [trimLoop], fun h hex => ?_, fun h _ => rfl⟩
    obtain ⟨s, hs, -⟩ := hex
    cases hs
  | cons a l ih =>
    have hnd2 : l.Nodup := (List.nodup_cons.mp hnd).2
    have hal : a ∉ l := (List.nodup_cons.mp hnd).1
    obtain ⟨ih1, ih2, ih3⟩ := ih hnd2 (rs.erase (hashAt roots a)) (roots.erase a)
    have hstep : trimLoop (a :: l) (rs, roots) =
        trimLoop l (rs.erase (hashAt roots a), roots.erase a) := rfl
    have hsame : ∀ t ∈ l, hashAt (roots.erase a) t = hashAt roots t :=
      fun t ht => hashAt_erase_ne roots a t (fun e => hal (e ▸ ht))
    rw [hstep]
    refine ⟨fun s => ?_, fun h hex => ?_, fun h hno => ?_⟩
    · rw [ih1 s, lookup_erase_eq]
      by_cases hs : s ∈ l
      · simp [hs]
      · by_cases hsa : s = a
        · simp [hsa]
        · simp [hs, hsa]
    · by_cases hin : ∃ t ∈ l, hashAt (roots.erase a) t = h
      · exact ih2 h hin
      · rw [ih3 h hin, lookup_erase_eq]
        obtain ⟨s, hs, hh⟩ := hex
        rcases List.mem_cons.mp hs with rfl | hs
        · simp [hh]
        · exact absurd ⟨s, hs, (hsame s hs).trans hh⟩ hin
    · have hin : ¬ ∃ t ∈ l, hashAt (roots.erase a) t = h := by
        rintro ⟨t, ht, hh⟩
        exact hno ⟨t, List.mem_cons_of_mem _ ht, (hsame t ht).symm.trans hh⟩
      rw [ih3 h hin, lookup_erase_eq]
      have hne : h ≠ hashAt roots a := fun e => hno ⟨a, List.mem_cons_self _ _, e.symm⟩
      simp [hne]

theorem lookup_feedIndex_of_keys_ne_nil (d : memoryDB) (pk : cipher.PubKey)
    (h : (d.feedIndex pk).keys ≠ []) : d.feeds.lookup pk = some (d.feedIndex pk) := by
  cases hl : d.feeds.lookup pk with
  | none =>
    rw [feedIndex_of_none d pk hl] at h
    exact absurd rfl h
  | some roots => rw [feedIndex_of_lookup d pk roots hl]

theorem mem_keys_iff_lookup (roots : FeedIndex) (s : Nat) :
    s ∈ roots.keys ↔ ∃ h, roots.lookup s = some h := by
  rw [← AList.mem_keys, ← AList.lookup_isSome, Option.isSome_iff_exists]

theorem hashAt_of_lookup (roots : FeedIndex) (s : Nat) (h : cipher.SHA256)
    (hl : roots.lookup s = some h) : hashAt roots s = h := by
  simp [hashAt, hl]

/-- The three ways `DelRootsBefore` ends: on an empty index, on an index
without a sequence number below `seq`, or after the trimming loop. -/
theorem DelRootsBefore_cases (d : memoryDB) (pk : cipher.PubKey) (seq : Nat) :
    ((∀ s ∈ (d.feedIndex pk).keys, seq ≤ s) ∧ d.DelRootsBefore pk seq = d) ∨
    ((∃ s ∈ (d.feedIndex pk).keys, s < seq) ∧
      d.feeds.lookup pk = some (d.feedIndex pk) ∧
      d.DelRootsBefore pk seq =
        { d with
          roots := (trimLoop (sortOrder ((d.feedIndex pk).keys.filter (fun s => s < seq)))
            (d.roots, d.feedIndex pk)).1
          feeds := d.feeds.replace pk
            (trimLoop (sortOrder ((d.feedIndex pk).keys.filter (fun s => s < seq)))
              (d.roots, d.feedIndex pk)).2 }) := by
  by_cases hk : (d.feedIndex pk).keys.length = 0
  · left
    have hk2 : (d.feedIndex pk).keys = [] := List.length_eq_zero.mp hk
    refine ⟨fun s hs => ?_, by simp [DelRootsBefore, hk]⟩
    rw [hk2] at hs
    cases hs
  · by_cases ho : ((d.feedIndex pk).keys.filter (fun s => s < seq)).length = 0
    · left
      have ho2 := List.length_eq_zero.mp ho
      refine ⟨fun s hs => ?_, by simp [DelRootsBefore, hk, ho]⟩
      by_contra hlt
      have hmem : s ∈ (d.feedIndex pk).keys.filter (fun s => s < seq) :=
        List.mem_filter.mpr ⟨hs, by simpa using hlt⟩
      rw [ho2] at hmem
      cases hmem
    · right
      have hkne : (d.feedIndex pk).keys ≠ [] := fun e => hk (by rw [e]; rfl)
      refine ⟨?_, lookup_feedIndex_of_keys_ne_nil d pk hkne, by simp [DelRootsBefore, hk, ho]⟩
      cases hf : (d.feedIndex pk).keys.filter (fun s => s < seq) with
      | nil => rw [hf] at ho; exact absurd rfl ho
      | cons s rest =>
        have hmem : s ∈ (d.feedIndex pk).keys.filter (fun s => s < seq) := by
          rw [hf]; exact List.mem_cons_self _ _
        have := List.mem_filter.mp hmem
        exact ⟨s, this.1, by simpa using this.2⟩

end data

namespace data
open memoryDB

/-- C9: after `DelRootsBefore(pk, n)` the index of `pk` holds exactly the
entries it had with sequence number `>= n`, each with its hash; the roots map
is the previous one minus the hashes of the removed entries; objects and every
other feed are unchanged.  The call changes nothing when the feed is absent,
empty or without a sequence number below `n`, and a second identical call
changes nothing. -/
theorem C9_delRootsBefore (d : memoryDB) (pk : cipher.PubKey) (n : Nat) :
    (∀ s, ((d.DelRootsBefore pk n).feedIndex pk).lookup s =
      if s < n then none else (d.feedIndex pk).lookup s) ∧
    (∀ h, (∃ s, s < n ∧ (d.feedIndex pk).lookup s = some h) →
      (d.DelRootsBefore pk n).roots.lookup h = none) ∧
    (∀ h, (¬ ∃ s, s < n ∧ (d.feedIndex pk).lookup s = some h) →
      (d.DelRootsBefore pk n).roots.lookup h = d.roots.lookup h) ∧
    (d.DelRootsBefore pk n).objects = d.objects ∧
    (∀ pk0, pk0 ≠ pk → (d.DelRootsBefore pk n).feeds.lookup pk0 = d.feeds.lookup pk0) ∧
    (d.DelRootsBefore pk n).HasFeed pk = d.HasFeed pk ∧
    ((d.HasFeed pk = false ∨ (d.feedIndex pk).keys = [] ∨
        ∀ s ∈ (d.feedIndex pk).keys, n ≤ s) → d.DelRootsBefore pk n = d) ∧
    (d.DelRootsBefore pk n).DelRootsBefore pk n = d.DelRootsBefore pk n := by
  -- the first six parts, for any store
  have main : ∀ d : memoryDB,
      (∀ s, ((d.DelRootsBefore pk n).feedIndex pk).lookup s =
        if s < n then none else (d.feedIndex pk).lookup s) ∧
      (∀ h, (∃ s, s < n ∧ (d.feedIndex pk).lookup s = some h) →
        (d.DelRootsBefore pk n).roots.lookup h = none) ∧
      (∀ h, (¬ ∃ s, s < n ∧ (d.feedIndex pk).lookup s = some h) →
        (d.DelRootsBefore pk n).roots.lookup h = d.roots.lookup h) ∧
      (d.DelRootsBefore pk n).objects = d.objects ∧
      (∀ pk0, pk0 ≠ pk → (d.DelRootsBefore pk n).feeds.lookup pk0 = d.feeds.lookup pk0) ∧
      (d.DelRootsBefore pk n).HasFeed pk = d.HasFeed pk := by
    intro d
    rcases DelRootsBefore_cases d pk n with ⟨hge, he⟩ | ⟨-, hf, he⟩
    · rw [he]
      have hnone : ∀ s, s < n → (d.feedIndex pk).lookup s = none := by
        intro s hs
        cases hl : (d.feedIndex pk).lookup s with
        | none => rfl
        | some h =>
          have := hge s ((mem_keys_iff_lookup _ s).mpr ⟨h, hl⟩)
          omega
      refine ⟨fun s => ?_, fun h hex => ?_, fun h _ => rfl, rfl, fun _ _ => rfl, rfl⟩
      · by_cases hs : s < n
        · rw [if_pos hs, hnone s hs]
        · rw [if_neg hs]
      · obtain ⟨s, hs, hl⟩ := hex
        rw [hnone s hs] at hl
        cases hl
    · have hnd : (sortOrder ((d.feedIndex pk).keys.filter (fun s => s < n))).Nodup :=
        (sortOrder_perm _).nodup_iff.mpr ((d.feedIndex pk).keys_nodup.filter _)
      have hmem : ∀ s, s ∈ sortOrder ((d.feedIndex pk).keys.filter (fun s => s < n)) ↔
          s ∈ (d.feedIndex pk).keys ∧ s < n := by
        intro s
        rw [mem_sortOrder, List.mem_filter]
        simp
      obtain ⟨t1, t2, t3⟩ := trimLoop_spec _ hnd d.roots (d.feedIndex pk)
      rw [he]
      refine ⟨fun s => ?_, fun h hex => ?_, fun h hno => ?_, rfl, fun pk0 hne => ?_, ?_⟩
      · rw [feedIndex_mk, lookup_replace, if_pos rfl, hf, Option.map_some', Option.getD_some,
          t1 s]
        by_cases hs : s < n
        · rw [if_pos hs]
          by_cases hk : s ∈ (d.feedIndex pk).keys
          · rw [if_pos ((hmem s).mpr ⟨hk, hs⟩)]
          · rw [if_neg (fun hm => hk ((hmem s).mp hm).1)]
            cases hl : (d.feedIndex pk).lookup s with
            | none => rfl
            | some h => exact absurd ((mem_keys_iff_lookup _ s).mpr ⟨h, hl⟩) hk
        · rw [if_neg hs, if_neg (fun hm => hs ((hmem s).mp hm).2)]
      · obtain ⟨s, hs, hl⟩ := hex
        exact t2 h ⟨s, (hmem s).mpr ⟨(mem_keys_iff_lookup _ s).mpr ⟨h, hl⟩, hs⟩,
          hashAt_of_lookup _ s h hl⟩
      · apply t3 h
        rintro ⟨s, hs, hh⟩
        obtain ⟨hk, hlt⟩ := (hmem s).mp hs
        obtain ⟨h0, hl⟩ := (mem_keys_iff_lookup _ s).mp hk
        rw [hashAt_of_lookup _ s h0 hl] at hh
        exact hno ⟨s, hlt, hh ▸ hl⟩
      · show AList.lookup pk0 (AList.replace pk _ d.feeds) = _
        rw [lookup_replace, if_neg hne]
      · show (AList.lookup pk (AList.replace pk _ d.feeds)).isSome = (d.feeds.lookup pk).isSome
        rw [lookup_replace, if_pos rfl, hf]
        rfl
  -- the call is without effect when no sequence number is below `n`
  have noop : ∀ d : memoryDB, (∀ s ∈ (d.feedIndex pk).keys, n ≤ s) →
      d.DelRootsBefore pk n = d := by
    intro d hge
    rcases DelRootsBefore_cases d pk n with ⟨-, he⟩ | ⟨⟨s, hs, hlt⟩, -, -⟩
    · exact he
    · have := hge s hs
      omega
  obtain ⟨m1, m2, m3, m4, m5, m6⟩ := main d
  refine ⟨m1, m2, m3, m4, m5, m6, fun h => ?_, ?_⟩
  · apply noop d
    rcases h with h | h | h
    · rw [feedIndex_keys_of_not_hasFeed d pk h]
      intro s hs
      cases hs
    · rw [h]
      intro s hs
      cases hs
    · exact h
  · apply noop
    intro s hs
    obtain ⟨h, hl⟩ := (mem_keys_iff_lookup _ s).mp hs
    by_contra hlt
    rw [m1 s, if_pos (not_le.mp hlt)] at hl
    cases hl

/-- A concrete instance of C9: trimming the sequence numbers 1, 2, 5, 7 below
5 leaves 5 and 7, the records at 1 and 2 leave the roots map, and a store
without a sequence number below the threshold stays as it is. -/
theorem C9_delRootsBefore_witness :
    ((fourRootStore.DelRootsBefore 7 5).feedIndex 7).keys = [7, 5] ∧
    (fourRootStore.DelRootsBefore 7 5).GetRoot 2 = none ∧
    (fourRootStore.DelRootsBefore 7 5).GetRoot 6 = some recordFive ∧
    fourRootStore.DelRootsBefore 7 1 = fourRootStore :=
  ⟨by decide, by decide, by decide,
   (C9_delRootsBefore fourRootStore 7 1).2.2.2.2.2.2.1 (Or.inr (Or.inr (by decide)))⟩

end data

/-! ## `DelFeed` -/

namespace data
open memoryDB

/-- Deleting the hash of every entry of a list from the roots map: a hash of
the list is absent afterwards, any other hash is as before. -/
theorem foldl_erase_lookup (es : List (Sigma (fun _ : Nat => cipher.SHA256))) (rs : RootsMap)
    (h : cipher.SHA256) :
    ((∃ e ∈ es, e.2 = h) → (es.foldl (fun r e => r.erase e.2) rs).lookup h = none) ∧
    ((¬ ∃ e ∈ es, e.2 = h) → (es.foldl (fun r e => r.erase e.2) rs).lookup h = rs.lookup h) := by
  induction es generalizing rs with
  | nil =>
    refine ⟨fun hex => ?_, fun _ => rfl⟩
    obtain ⟨e, he, -⟩ := hex
    cases he
  | cons a es ih =>
    obtain ⟨ih1, ih2⟩ := ih (rs.erase a.2)
    have hstep : (a :: es).foldl (fun r e => r.erase e.2) rs =
        es.foldl (fun r e => r.erase e.2) (rs.erase a.2) := rfl
    rw [hstep]
    refine ⟨fun hex => ?_, fun hno => ?_⟩
    · by_cases hin : ∃ e ∈ es, e.2 = h
      · exact ih1 hin
      · rw [ih2 hin, lookup_erase_eq]
        obtain ⟨e, he, hh⟩ := hex
        rcases List.mem_cons.mp he with rfl | he
        · simp [hh]
        · exact absurd ⟨e, he, hh⟩ hin
    · have hin : ¬ ∃ e ∈ es, e.2 = h := by
        rintro ⟨e, he, hh⟩
        exact hno ⟨e, List.mem_cons_of_mem _ he, hh⟩
      rw [ih2 hin, lookup_erase_eq]
      have hne : h ≠ a.2 := fun e => hno ⟨a, List.mem_cons_self _ _, e.symm⟩
      simp [hne]

/-- C10: after `DelFeed(pk)`, `pk` is not in `Feeds()`, `HasFeed(pk)` is
false, and `GetRoot(h)` returns found = false for every hash `h` the index of
`pk` contained before the call; when `pk` was not registered the store is
unchanged. -/
theorem C10_delFeed (d : memoryDB) (pk : cipher.PubKey) :
    pk ∉ (d.DelFeed pk).Feeds ∧
    (d.DelFeed pk).HasFeed pk = false ∧
    (∀ seq h, (d.feedIndex pk).lookup seq = some h → (d.DelFeed pk).GetRoot h = none) ∧
    (d.HasFeed pk = false → d.DelFeed pk = d) := by
  refine ⟨?_, ?_, fun seq h hl => ?_, fun hno => ?_⟩
  · show pk ∉ (d.feeds.erase pk).keys
    rw [← AList.mem_keys, AList.mem_erase]
    exact fun hc => hc.1 rfl
  · show (AList.lookup pk (d.feeds.erase pk)).isSome = false
    rw [AList.lookup_erase]
    rfl
  · have hmem : (Sigma.mk seq h : Sigma (fun _ : Nat => cipher.SHA256)) ∈
        (d.feedIndex pk).entries :=
      (List.mem_dlookup_iff (d.feedIndex pk).nodupKeys).mp hl
    exact (foldl_erase_lookup (d.feedIndex pk).entries d.roots h).1 ⟨_, hmem, rfl⟩
  · have hn : d.feeds.lookup pk = none := by
      unfold HasFeed at hno
      cases hl : d.feeds.lookup pk with
      | none => rfl
      | some v => rw [hl] at hno; cases hno
    have hidx : d.feedIndex pk = ∅ := feedIndex_of_none d pk hn
    have hmem : pk ∉ d.feeds := AList.lookup_eq_none.mp hn
    unfold DelFeed
    rw [hidx, erase_of_not_mem d.feeds pk hmem]
    rfl

/-- A concrete instance of C10: deleting feed 7 of `twoFeedStore` leaves feed
8 alone in `Feeds()` and removes the record of sequence 9 from the roots map;
deleting the unregistered feed 3 changes nothing. -/
theorem C10_delFeed_witness :
    (twoFeedStore.DelFeed 7).Feeds = [8] ∧
    twoFeedStore.GetRoot 10 = some recordNine ∧
    (twoFeedStore.DelFeed 7).GetRoot 10 = none ∧
    twoFeedStore.DelFeed 3 = twoFeedStore :=
  ⟨by decide, by decide,
   (C10_delFeed twoFeedStore 7).2.2.1 9 10 (by decide),
   (C10_delFeed twoFeedStore 3).2.2.2 (by decide)⟩

end data

/-! ## Records with one payload, under every hash function

The roots map is keyed by the hash of the payload alone.  The lemmas below
hold for every hash function, so the instances evaluated with `toySum` do not
depend on the choice of that function. -/

namespace data
open memoryDB

/-- Under every hash function, two records with the same payload added to one
feed at sequences 1 and 2 end on a single roots entry, and `RangeFeed` hands
the visitor the second record twice. -/
theorem rangeFeed_same_payload (SumSHA256 : Bytes → cipher.SHA256) (b : Bytes)
    (p q : cipher.SHA256) (hp : p ≠ 0) (hq : q ≠ 0) (s t : cipher.Sig) (pk : cipher.PubKey) :
    (run SumSHA256 NewMemoryDB
        [Op.AddRoot pk ⟨b, 1, p, SumSHA256 b, s⟩,
         Op.AddRoot pk ⟨b, 2, q, SumSHA256 b, t⟩]).RangeFeed pk (fun _ => false) =
      some [⟨b, 2, q, SumSHA256 b, t⟩, ⟨b, 2, q, SumSHA256 b, t⟩] := by
  simp [run, Op.apply, AddRoot, testRoot, testPrev, hp, hq, NewMemoryDB, RangeFeed, feedIndex,
    AList.lookup_insert, lookup_replace, AList.lookup_empty, lookup_singleton, AList.mem_keys,
    AList.keys_singleton, AList.keys_insert, lookup_assign, visitLoop, hashAt, sortOrder,
    List.insertionSort, List.orderedInsert]

/-- Under every hash function, two records with the same payload added to one
feed at sequences 2 and 1 leave the record of sequence 1 under the hash that
sequence 2 indexes, and `LastRoot` returns it. -/
theorem lastRoot_same_payload (SumSHA256 : Bytes → cipher.SHA256) (b : Bytes)
    (p q : cipher.SHA256) (hp : p ≠ 0) (hq : q ≠ 0) (s t : cipher.Sig) (pk : cipher.PubKey) :
    (run SumSHA256 NewMemoryDB
        [Op.AddRoot pk ⟨b, 2, p, SumSHA256 b, s⟩,
         Op.AddRoot pk ⟨b, 1, q, SumSHA256 b, t⟩]).LastRoot pk =
      some (some ⟨b, 1, q, SumSHA256 b, t⟩) := by
  simp [run, Op.apply, AddRoot, testRoot, testPrev, hp, hq, NewMemoryDB, LastRoot, feedIndex,
    AList.lookup_insert, lookup_replace, AList.lookup_empty, lookup_singleton, AList.mem_keys,
    AList.keys_singleton, AList.keys_insert, lookup_assign, hashAt, maxSeq]

/-- Under every hash function, a record added to two feeds is stored once;
deleting the first feed removes it, and the second feed then indexes a hash
that the roots map does not hold: `RangeFeed` and `LastRoot` panic. -/
theorem shared_root_deleted (SumSHA256 : Bytes → cipher.SHA256) (b : Bytes)
    (p : cipher.SHA256) (hp : p ≠ 0) (s : cipher.Sig) (pk1 pk2 : cipher.PubKey)
    (hne : pk1 ≠ pk2) :
    (run SumSHA256 NewMemoryDB
        [Op.AddRoot pk1 ⟨b, 1, p, SumSHA256 b, s⟩,
         Op.AddRoot pk2 ⟨b, 1, p, SumSHA256 b, s⟩,
         Op.DelFeed pk1]).RangeFeed pk2 (fun _ => false) = none ∧
    (run SumSHA256 NewMemoryDB
        [Op.AddRoot pk1 ⟨b, 1, p, SumSHA256 b, s⟩,
         Op.AddRoot pk2 ⟨b, 1, p, SumSHA256 b, s⟩,
         Op.DelFeed pk1]).LastRoot pk2 = none := by
  have hne2 : pk2 ≠ pk1 := fun e => hne e.symm
  constructor
  · simp [run, Op.apply, AddRoot, testRoot, testPrev, hp, NewMemoryDB, RangeFeed, feedIndex,
      DelFeed, AList.lookup_insert, AList.lookup_insert_ne, lookup_replace, AList.lookup_empty,
      lookup_singleton, AList.mem_keys, AList.keys_singleton, AList.keys_insert, lookup_assign,
      visitLoop, hashAt, sortOrder, List.insertionSort, List.orderedInsert, hne, hne2,
      lookup_erase_eq, AList.singleton_entries, List.foldl]
  · simp [run, Op.apply, AddRoot, testRoot, testPrev, hp, NewMemoryDB, LastRoot, feedIndex,
      DelFeed, AList.lookup_insert, AList.lookup_insert_ne, lookup_replace, AList.lookup_empty,
      lookup_singleton, AList.mem_keys, AList.keys_singleton, AList.keys_insert, lookup_assign,
      hashAt, maxSeq, hne, hne2, lookup_erase_eq, AList.singleton_entries, List.foldl]

end data

/-! ## The roots of a reachable store -/

namespace data
open memoryDB

/-- C11, at the failing input: the store reached by `AddRoot(7, r)`,
`AddRoot(8, r)`, `DelFeed(7)` is reachable, feed 8 indexes sequence 1 at hash
5, the roots map holds nothing under 5, and `LastRoot`, `RangeFeed` and
`RangeFeedReverse` of feed 8 end in their panic.  The record is stored once
for both feeds under any hash function (`shared_root_deleted`). -/
theorem C11_missing_root_reachable :
    Reachable toySum strandedStore ∧
    (strandedStore.feedIndex 8).lookup 1 = some 5 ∧
    strandedStore.roots.lookup 5 = none ∧
    strandedStore.LastRoot 8 = none ∧
    strandedStore.RangeFeed 8 (fun _ => false) = none ∧
    strandedStore.RangeFeedReverse 8 (fun _ => false) = none :=
  ⟨⟨[Op.AddRoot 7 firstRecord, Op.AddRoot 8 firstRecord, Op.DelFeed 7], rfl⟩,
   by decide, by decide, by decide, by decide, by decide⟩

/-- The method `AddFeed` writes neither the roots map nor the objects map. -/
theorem AddFeed_frame (d : memoryDB) (pk : cipher.PubKey) :
    (d.AddFeed pk).roots = d.roots ∧ (d.AddFeed pk).objects = d.objects := by
  unfold AddFeed
  split <;> exact ⟨rfl, rfl⟩

/-- A sequence of public calls is a sequence of steps. -/
theorem runSteps_map_call (SumSHA256 : Bytes → cipher.SHA256) (ops : List Op) (d : memoryDB) :
    runSteps SumSHA256 d (ops.map Step.call) = run SumSHA256 d ops := by
  induction ops generalizing d with
  | nil => rfl
  | cons op ops ih => exact ih (op.apply SumSHA256 d)

/-- A store reachable by public calls alone is reachable by callers. -/
theorem Reachable.byCallers (SumSHA256 : Bytes → cipher.SHA256) (d : memoryDB)
    (h : Reachable SumSHA256 d) : ReachableByCallers SumSHA256 d := by
  obtain ⟨ops, hrun⟩ := h
  exact ⟨ops.map Step.call, (runSteps_map_call SumSHA256 ops NewMemoryDB).trans hrun⟩

end data

/-! ## Idempotent calls, `RangeDelete` and the two namespaces -/

namespace data
open memoryDB

theorem assign_assign {K : Type} {V : Type} [DecidableEq K] (m : AList (fun _ : K => V))
    (k : K) (v : V) : assign (assign m k v) k v = assign m k v := by
  have hl : (assign m k v).lookup k = some v := by rw [lookup_assign, if_pos rfl]
  have hmem : k ∈ assign m k v := AList.lookup_isSome.mp (by rw [hl]; rfl)
  have h1 : assign (assign m k v) k v = (assign m k v).replace k v := by
    show (if k ∈ assign m k v then _ else _) = _
    rw [if_pos hmem]
  rw [h1]
  exact replace_self _ k v hl

/-- C14: `Add` is idempotent: called twice with the payload `b` it returns the
same key both times, and the store after the second call is exactly the store
after the first. -/
theorem C14_add_idempotent (SumSHA256 : Bytes → cipher.SHA256) (d : memoryDB) (b : Bytes) :
    (memoryDB.Add SumSHA256 (memoryDB.Add SumSHA256 d b).1 b).2 = (memoryDB.Add SumSHA256 d b).2 ∧
    (memoryDB.Add SumSHA256 (memoryDB.Add SumSHA256 d b).1 b).1 = (memoryDB.Add SumSHA256 d b).1 := by
  refine ⟨rfl, ?_⟩
  show ({ (d.Set (SumSHA256 b) b) with
      objects := assign (d.Set (SumSHA256 b) b).objects (SumSHA256 b) b } : memoryDB) =
    d.Set (SumSHA256 b) b
  show ({ objects := assign (assign d.objects (SumSHA256 b) b) (SumSHA256 b) b,
          roots := d.roots, feeds := d.feeds } : memoryDB) =
    { objects := assign d.objects (SumSHA256 b) b, roots := d.roots, feeds := d.feeds }
  rw [assign_assign]

/-- C15: `AddFeed` is idempotent and non-destructive: for an unregistered
`pk`, `HasFeed(pk)` is true afterwards and the feed indexes no sequence
number; for a registered `pk` the store is unchanged; a second `AddFeed(pk)`
changes nothing. -/
theorem C15_addFeed_idempotent (d : memoryDB) (pk : cipher.PubKey) :
    (d.HasFeed pk = false →
      (d.AddFeed pk).HasFeed pk = true ∧ ((d.AddFeed pk).feedIndex pk).keys = [] ∧
      (d.AddFeed pk).feeds.lookup pk = some ∅) ∧
    (d.HasFeed pk = true → d.AddFeed pk = d) ∧
    (d.AddFeed pk).AddFeed pk = d.AddFeed pk := by
  have hreg : ∀ d : memoryDB, d.HasFeed pk = true → d.AddFeed pk = d := by
    intro d h
    unfold HasFeed at h
    unfold AddFeed
    cases hl : d.feeds.lookup pk with
    | none => rw [hl] at h; cases h
    | some v => rfl
  have hafter : (d.AddFeed pk).HasFeed pk = true := by
    unfold AddFeed HasFeed
    cases hl : d.feeds.lookup pk with
    | none => simp [AList.lookup_insert]
    | some v => simp [hl]
  refine ⟨fun hno => ⟨hafter, ?_, ?_⟩, hreg d, hreg _ hafter⟩
  · have hn : d.feeds.lookup pk = none := by
      unfold HasFeed at hno
      cases hl : d.feeds.lookup pk with
      | none => rfl
      | some v => rw [hl] at hno; cases hno
    unfold AddFeed
    simp [hn, feedIndex, AList.lookup_insert]
  · have hn : d.feeds.lookup pk = none := by
      unfold HasFeed at hno
      cases hl : d.feeds.lookup pk with
      | none => rfl
      | some v => rw [hl] at hno; cases hno
    unfold AddFeed
    simp [hn, AList.lookup_insert]

/-- A concrete instance of C15: feed 3 is registered empty in `threeRootStore`
and feed 7 keeps its three roots. -/
theorem C15_addFeed_idempotent_witness :
    (threeRootStore.AddFeed 3).HasFeed 3 = true ∧
    ((threeRootStore.AddFeed 3).feedIndex 3).keys = [] ∧
    threeRootStore.AddFeed 7 = threeRootStore ∧
    ((threeRootStore.AddFeed 7).feedIndex 7).keys = [5, 2, 9] :=
  ⟨((C15_addFeed_idempotent threeRootStore 3).1 (by decide)).1,
   ((C15_addFeed_idempotent threeRootStore 3).1 (by decide)).2.1,
   (C15_addFeed_idempotent threeRootStore 7).2.1 (by decide),
   by decide⟩

end data

namespace data
open memoryDB

/-- The loop of `RangeDelete` over a list of keys: a key of the list that the
predicate selects is absent afterwards, any other key is as before. -/
theorem rangeDelete_loop_lookup (fn : cipher.SHA256 → Bool) (l : List cipher.SHA256)
    (m : AList (fun _ : cipher.SHA256 => Bytes)) (k : cipher.SHA256) :
    (l.foldl (fun o key => if fn key then o.erase key else o) m).lookup k =
      if k ∈ l ∧ fn k = true then none else m.lookup k := by
  induction l generalizing m with
  | nil => simp
  | cons a l ih =>
    have hstep : (a :: l).foldl (fun o key => if fn key then o.erase key else o) m =
        l.foldl (fun o key => if fn key then o.erase key else o)
          (if fn a then m.erase a else m) := rfl
    rw [hstep, ih]
    by_cases hkl : k ∈ l ∧ fn k = true
    · have : k ∈ a :: l ∧ fn k = true := ⟨List.mem_cons_of_mem _ hkl.1, hkl.2⟩
      rw [if_pos hkl, if_pos this]
    · rw [if_neg hkl]
      by_cases hfa : fn a = true
      · rw [if_pos hfa, lookup_erase_eq]
        by_cases hka : k = a
        · subst hka
          rw [if_pos rfl, if_pos ⟨List.mem_cons_self _ _, hfa⟩]
        · rw [if_neg hka]
          have : ¬ (k ∈ a :: l ∧ fn k = true) := by
            rintro ⟨h1, h2⟩
            rcases List.mem_cons.mp h1 with h1 | h1
            · exact hka h1
            · exact hkl ⟨h1, h2⟩
          rw [if_neg this]
      · rw [if_neg hfa]
        have : ¬ (k ∈ a :: l ∧ fn k = true) := by
          rintro ⟨h1, h2⟩
          rcases List.mem_cons.mp h1 with h1 | h1
          · exact hfa (h1 ▸ h2)
          · exact hkl ⟨h1, h2⟩
        rw [if_neg this]

/-- C16: after `RangeDelete(p)` the objects map holds exactly the previous
entries whose key does not satisfy `p`, each with its value; the roots map and
the feed index are unchanged. -/
theorem C16_rangeDelete (d : memoryDB) (p : cipher.SHA256 → Bool) :
    (∀ k, (d.RangeDelete p).Get k = if p k = true then none else d.Get k) ∧
    (∀ k, (d.RangeDelete p).IsExist k = (d.IsExist k && !p k)) ∧
    (d.RangeDelete p).roots = d.roots ∧
    (d.RangeDelete p).feeds = d.feeds := by
  have hget : ∀ k, (d.RangeDelete p).Get k = if p k = true then none else d.Get k := by
    intro k
    show (d.objects.keys.foldl (fun o key => if p key then o.erase key else o)
      d.objects).lookup k = if p k = true then none else d.objects.lookup k
    rw [rangeDelete_loop_lookup]
    by_cases hp : p k = true
    · rw [if_pos hp]
      by_cases hk : k ∈ d.objects.keys
      · rw [if_pos ⟨hk, hp⟩]
      · rw [if_neg (fun h => hk h.1)]
        exact AList.lookup_eq_none.mpr (fun hm => hk (AList.mem_keys.mp hm))
    · rw [if_neg hp, if_neg (fun h => hp h.2)]
  refine ⟨hget, fun k => ?_, rfl, rfl⟩
  have h1 := hget k
  unfold Get at h1
  unfold IsExist
  rw [h1]
  by_cases hp : p k = true
  · simp [hp]
  · simp [hp]

/-- C17: the two namespaces are independent.  `Set`, `Add`, `Del` and
`RangeDelete` leave the roots map and the feed index as they are, so
`GetRoot`, `HasFeed`, `Feeds` and `LastRoot` answer the same before and
after; `AddFeed`, `DelFeed`, `AddRoot`, `RangeFeedDelete` and
`DelRootsBefore` leave the objects map as it is, so `Get` and `IsExist`
answer the same, also for a hash used as a key in both maps. -/
theorem C17_namespaces_independent (SumSHA256 : Bytes → cipher.SHA256) (d : memoryDB) :
    (∀ op : Op,
      ((∃ key value, op = Op.Set key value) ∨ (∃ value, op = Op.Add value) ∨
        (∃ key, op = Op.Del key) ∨ (∃ fn, op = Op.RangeDelete fn)) →
      (op.apply SumSHA256 d).roots = d.roots ∧
      (op.apply SumSHA256 d).feeds = d.feeds ∧
      (∀ h, (op.apply SumSHA256 d).GetRoot h = d.GetRoot h) ∧
      (∀ pk, (op.apply SumSHA256 d).HasFeed pk = d.HasFeed pk) ∧
      (op.apply SumSHA256 d).Feeds = d.Feeds ∧
      (∀ pk, (op.apply SumSHA256 d).LastRoot pk = d.LastRoot pk)) ∧
    (∀ op : Op,
      ((∃ pk, op = Op.AddFeed pk) ∨ (∃ pk, op = Op.DelFeed pk) ∨
        (∃ pk rp, op = Op.AddRoot pk rp) ∨ (∃ pk fn, op = Op.RangeFeedDelete pk fn) ∨
        (∃ pk seq, op = Op.DelRootsBefore pk seq)) →
      (op.apply SumSHA256 d).objects = d.objects ∧
      (∀ key, (op.apply SumSHA256 d).Get key = d.Get key) ∧
      (∀ key, (op.apply SumSHA256 d).IsExist key = d.IsExist key)) := by
  constructor
  · intro op hop
    have h : (op.apply SumSHA256 d).roots = d.roots ∧ (op.apply SumSHA256 d).feeds = d.feeds := by
      rcases hop with ⟨key, value, rfl⟩ | ⟨value, rfl⟩ | ⟨key, rfl⟩ | ⟨fn, rfl⟩ <;>
        exact ⟨rfl, rfl⟩
    obtain ⟨h1, h2⟩ := h
    refine ⟨h1, h2, fun h => ?_, fun pk => ?_, ?_, fun pk => ?_⟩
    · unfold GetRoot; rw [h1]
    · unfold HasFeed; rw [h2]
    · unfold Feeds; rw [h2]
    · unfold LastRoot feedIndex; rw [h1, h2]
  · intro op hop
    have h : (op.apply SumSHA256 d).objects = d.objects := by
      rcases hop with ⟨pk, rfl⟩ | ⟨pk, rfl⟩ | ⟨pk, rp, rfl⟩ | ⟨pk, fn, rfl⟩ | ⟨pk, seq, rfl⟩
      · exact (AddFeed_frame d pk).2
      · rfl
      · show (d.AddRoot SumSHA256 pk rp).1.objects = d.objects
        rcases AddRoot_cases SumSHA256 d pk rp with
          ⟨descr, -, he⟩ | ⟨-, -, he⟩ | ⟨-, -, he⟩ | ⟨-, -, -, he⟩ <;> rw [he]
      · show (d.RangeFeedDelete pk fn).objects = d.objects
        unfold RangeFeedDelete
        by_cases hk : (d.feedIndex pk).keys.length = 0
        · simp only [hk, if_true]
        · simp only [hk, if_false]
      · show (d.DelRootsBefore pk seq).objects = d.objects
        rcases DelRootsBefore_cases d pk seq with ⟨-, he⟩ | ⟨-, -, he⟩ <;> rw [he]
    refine ⟨h, fun key => ?_, fun key => ?_⟩
    · unfold Get; rw [h]
    · unfold IsExist; rw [h]

/-- A concrete instance of C17: hash 10 is a key of the roots map of
`threeRootStore`; setting and deleting the object 10 leaves the root 10, and
adding a root with hash 12 leaves the object 12. -/
theorem C17_namespaces_independent_witness :
    (threeRootStore.Set 10 [1, 2]).GetRoot 10 = threeRootStore.GetRoot 10 ∧
    threeRootStore.GetRoot 10 = some recordNine ∧
    ((threeRootStore.Set 12 [3]).AddRoot toySum 7 ⟨[11], 3, 1, 12, 0⟩).1.Get 12 = some [3] :=
  ⟨((C17_namespaces_independent toySum threeRootStore).1 (Op.Set 10 [1, 2])
      (Or.inl ⟨10, [1, 2], rfl⟩)).2.2.1 10,
   by decide,
   (((C17_namespaces_independent toySum (threeRootStore.Set 12 [3])).2
      (Op.AddRoot 7 ⟨[11], 3, 1, 12, 0⟩) (Or.inr (Or.inr (Or.inl ⟨7, _, rfl⟩)))).2.1 12).trans
    (by decide)⟩

end data

/-! ## `RangeFeedDelete` -/

namespace data
open memoryDB

/-- C12, at the failing input: `twoSeqStore` is reachable, its feed 7 indexes
the sequence numbers 1 and 2, and `RangeFeedDelete(7, p)` with the predicate
that answers true hands `p` the stored record at sequence 1 and then the nil
pointer at sequence 2: the first turn deleted the one roots entry that both
sequence numbers index. -/
theorem C12_predicate_receives_nil :
    Reachable toySum twoSeqStore ∧
    (twoSeqStore.feedIndex 7).keys = [2, 1] ∧
    twoSeqStore.RangeFeedDeleteVisits 7 (fun _ => true) = [some samePayloadRecord, none] ∧
    strandedStore.RangeFeedDeleteVisits 8 (fun _ => true) = [none] :=
  ⟨⟨[Op.AddRoot 7 firstRecord, Op.AddRoot 7 samePayloadRecord], rfl⟩,
   by decide, by decide, by decide⟩

/-- On sequence numbers that index pairwise distinct hashes, the loop of
`RangeFeedDelete` is the trimming loop over the sequence numbers whose stored
record the predicate selects. -/
theorem deleteLoop_eq_trimLoop (fn : Option RootPack → Bool) (l : List Nat) (hnd : l.Nodup)
    (rs : RootsMap) (roots : FeedIndex)
    (hinj : ∀ s ∈ l, ∀ t ∈ l, s ≠ t → hashAt roots s ≠ hashAt roots t) :
    deleteLoop fn l (rs, roots) =
      trimLoop (l.filter (fun s => fn (rs.lookup (hashAt roots s)))) (rs, roots) := by
  induction l generalizing rs roots with
  | nil => rfl
  | cons a l ih =>
    have hnd2 : l.Nodup := (List.nodup_cons.mp hnd).2
    have hal : a ∉ l := (List.nodup_cons.mp hnd).1
    have hinj2 : ∀ s ∈ l, ∀ t ∈ l, s ≠ t → hashAt roots s ≠ hashAt roots t :=
      fun s hs t ht hst => hinj s (List.mem_cons_of_mem _ hs) t (List.mem_cons_of_mem _ ht) hst
    by_cases hf : fn (rs.lookup (hashAt roots a)) = true
    · have hsame : ∀ t ∈ l, hashAt (roots.erase a) t = hashAt roots t :=
        fun t ht => hashAt_erase_ne roots a t (fun e => hal (e ▸ ht))
      have hinj3 : ∀ s ∈ l, ∀ t ∈ l, s ≠ t →
          hashAt (roots.erase a) s ≠ hashAt (roots.erase a) t := by
        intro s hs t ht hst
        rw [hsame s hs, hsame t ht]
        exact hinj2 s hs t ht hst
      have hfilter : l.filter (fun s => fn ((rs.erase (hashAt roots a)).lookup
            (hashAt (roots.erase a) s))) =
          l.filter (fun s => fn (rs.lookup (hashAt roots s))) := by
        apply List.filter_congr
        intro s hs
        have hne : hashAt roots s ≠ hashAt roots a :=
          hinj s (List.mem_cons_of_mem _ hs) a (List.mem_cons_self _ _)
            (fun e => hal (e ▸ hs))
        rw [hsame s hs, lookup_erase_eq, if_neg hne]
      have h1 : deleteLoop fn (a :: l) (rs, roots) =
          deleteLoop fn l (rs.erase (hashAt roots a), roots.erase a) := by
        show (if fn (rs.lookup (hashAt roots a)) = true then _ else _) = _
        rw [if_pos hf]
      have e : (a :: l).filter (fun s => fn (rs.lookup (hashAt roots s))) =
          a :: l.filter (fun s => fn (rs.lookup (hashAt roots s))) := by
        simp [List.filter_cons, hf]
      rw [h1, ih hnd2 _ _ hinj3, hfilter, e]
      rfl
    · have h1 : deleteLoop fn (a :: l) (rs, roots) = deleteLoop fn l (rs, roots) := by
        show (if fn (rs.lookup (hashAt roots a)) = true then _ else _) = _
        rw [if_neg hf]
      have e : (a :: l).filter (fun s => fn (rs.lookup (hashAt roots s))) =
          l.filter (fun s => fn (rs.lookup (hashAt roots s))) := by
        simp [List.filter_cons, hf]
      rw [h1, ih hnd2 _ _ hinj2, e]

/-- Sorting commutes with keeping the sequence numbers that pass a test. -/
theorem sortOrder_filter (p : Nat → Bool) (l : List Nat) :
    sortOrder (l.filter p) = (sortOrder l).filter p :=
  (sortOrder_unique (l.filter p) ((sortOrder l).filter p)
    ((sortOrder_perm l).filter p) ((sortOrder_sorted l).filter p)).symm

end data

namespace data
open memoryDB

/-- C20: on a store state in which each entry `seq -> h` of the index of feed
`pk` has a record stored at `roots[h]` whose `Seq` is `seq`,
`RangeFeedDelete(pk, p)` with `p(r) := r.Seq < n` ends in exactly the store
state of `DelRootsBefore(pk, n)`, for every `n`. -/
theorem C20_rangeFeedDelete_refines_delRootsBefore (d : memoryDB) (pk : cipher.PubKey)
    (n : Nat) (p : Option RootPack → Bool)
    (hp : ∀ r : RootPack, p (some r) = decide (r.Seq < n))
    (hmatch : ∀ seq ∈ (d.feedIndex pk).keys,
      (d.roots.lookup (hashAt (d.feedIndex pk) seq)).map RootPack.Seq = some seq) :
    d.RangeFeedDelete pk p = d.DelRootsBefore pk n := by
  by_cases hk : (d.feedIndex pk).keys.length = 0
  · simp [RangeFeedDelete, DelRootsBefore, hk]
  · have hkne : (d.feedIndex pk).keys ≠ [] := fun e => hk (by rw [e]; rfl)
    have hf := lookup_feedIndex_of_keys_ne_nil d pk hkne
    -- every indexed sequence number has its record, with that sequence number
    have hrec : ∀ seq ∈ (d.feedIndex pk).keys,
        ∃ r, d.roots.lookup (hashAt (d.feedIndex pk) seq) = some r ∧ r.Seq = seq := by
      intro seq hs
      have h := hmatch seq hs
      cases hl : d.roots.lookup (hashAt (d.feedIndex pk) seq) with
      | none => rw [hl] at h; cases h
      | some r =>
        rw [hl] at h
        exact ⟨r, rfl, Option.some.inj h⟩
    -- distinct sequence numbers index distinct hashes
    have hinj : ∀ s ∈ sortOrder (d.feedIndex pk).keys, ∀ t ∈ sortOrder (d.feedIndex pk).keys,
        s ≠ t → hashAt (d.feedIndex pk) s ≠ hashAt (d.feedIndex pk) t := by
      intro s hs t ht hst he
      obtain ⟨r1, h1, e1⟩ := hrec s ((mem_sortOrder _ s).mp hs)
      obtain ⟨r2, h2, e2⟩ := hrec t ((mem_sortOrder _ t).mp ht)
      rw [he, h2] at h1
      have : r2 = r1 := Option.some.inj h1
      exact hst (by rw [← e1, ← e2, this])
    have hnd : (sortOrder (d.feedIndex pk).keys).Nodup :=
      (sortOrder_perm _).nodup_iff.mpr (d.feedIndex pk).keys_nodup
    have hfilter : (sortOrder (d.feedIndex pk).keys).filter
          (fun s => p (d.roots.lookup (hashAt (d.feedIndex pk) s))) =
        sortOrder ((d.feedIndex pk).keys.filter (fun s => s < n)) := by
      rw [sortOrder_filter]
      apply List.filter_congr
      intro s hs
      obtain ⟨r, h1, e1⟩ := hrec s ((mem_sortOrder _ s).mp hs)
      rw [h1, hp r, e1]
    have hloop : deleteLoop p (sortOrder (d.feedIndex pk).keys) (d.roots, d.feedIndex pk) =
        trimLoop (sortOrder ((d.feedIndex pk).keys.filter (fun s => s < n)))
          (d.roots, d.feedIndex pk) := by
      rw [deleteLoop_eq_trimLoop p _ hnd _ _ hinj, hfilter]
    have hleft : d.RangeFeedDelete pk p =
        { d with
          roots := (trimLoop (sortOrder ((d.feedIndex pk).keys.filter (fun s => s < n)))
            (d.roots, d.feedIndex pk)).1
          feeds := d.feeds.replace pk
            (trimLoop (sortOrder ((d.feedIndex pk).keys.filter (fun s => s < n)))
              (d.roots, d.feedIndex pk)).2 } := by
      unfold RangeFeedDelete
      simp only [hk, if_false, hloop]
    rw [hleft]
    by_cases ho : ((d.feedIndex pk).keys.filter (fun s => s < n)).length = 0
    · have ho2 := List.length_eq_zero.mp ho
      have hright : d.DelRootsBefore pk n = d := by
        simp [DelRootsBefore, hk, ho]
      rw [hright, ho2]
      show ({ d with roots := d.roots, feeds := d.feeds.replace pk (d.feedIndex pk) } :
        memoryDB) = d
      rw [replace_self d.feeds pk (d.feedIndex pk) hf]
    · simp [DelRootsBefore, hk, ho]

/-- A concrete instance of C20: on the feed with sequence numbers 1, 2, 5, 7,
deleting the records with `Seq < 5` through `RangeFeedDelete` gives the store
of `DelRootsBefore(7, 5)`, with the sequence numbers 5 and 7 left. -/
theorem C20_rangeFeedDelete_refines_delRootsBefore_witness :
    fourRootStore.RangeFeedDelete 7
        (fun rp => match rp with
          | some r => decide (r.Seq < 5)
          | none => false) = fourRootStore.DelRootsBefore 7 5 ∧
    ((fourRootStore.DelRootsBefore 7 5).feedIndex 7).keys = [7, 5] :=
  ⟨C20_rangeFeedDelete_refines_delRootsBefore fourRootStore 7 5 _ (fun _ => rfl) (by decide),
   by decide⟩

end data

/-! ## `Stat` -/

namespace data
open memoryDB

/-- The inner loop of `Stat`, when every hash of the entries is stored: the
sum of `len(record.Root) + add` over the entries, added to the start value. -/
theorem feedSpace_sum (rs : RootsMap) (add : Nat)
    (es : List (Sigma (fun _ : Nat => cipher.SHA256))) (space : Nat)
    (hstored : ∀ x ∈ es, (rs.lookup x.2).isSome) :
    ∃ recs : List RootPack, es.map (fun x => rs.lookup x.2) = recs.map some ∧
      feedSpace rs add es space =
        some (space + (recs.map (fun r => r.Root.length + add)).sum) := by
  induction es generalizing space with
  | nil => exact ⟨[], rfl, rfl⟩
  | cons e es ih =>
    obtain ⟨rp, hrp⟩ := Option.isSome_iff_exists.mp (hstored e (List.mem_cons_self _ _))
    obtain ⟨recs, h1, h2⟩ := ih (space + (rp.Root.length + add))
      (fun x hx => hstored x (List.mem_cons_of_mem _ hx))
    refine ⟨rp :: recs, ?_, ?_⟩
    · simp [hrp, h1]
    · have hstep : feedSpace rs add (e :: es) space =
          feedSpace rs add es (space + (rp.Root.length + add)) := by
        simp [feedSpace, hrp]
      rw [hstep, h2]
      simp [Nat.add_assoc]

/-- The outer loop of `Stat` over feeds with pairwise distinct keys, when
every indexed hash is stored: a feed of the list gets its statistics, any
other key stays as in the start value. -/
theorem statFeeds_lookup (rs : RootsMap) (add : Nat)
    (es : List (Sigma (fun _ : cipher.PubKey => FeedIndex))) (hnd : es.NodupKeys)
    (acc : AList (fun _ : cipher.PubKey => FeedStat))
    (hstored : ∀ e ∈ es, ∀ x ∈ e.2.entries, (rs.lookup x.2).isSome) :
    ∃ feeds, statFeeds rs add es acc = some feeds ∧
      ∀ pk, feeds.lookup pk =
        match es.dlookup pk with
        | some idx =>
          (feedSpace rs add idx.entries 0).map (fun space => ⟨idx.entries.length, space⟩)
        | none => acc.lookup pk := by
  induction es generalizing acc with
  | nil => exact ⟨acc, rfl, fun pk => rfl⟩
  | cons e es ih =>
    obtain ⟨k, idx⟩ := e
    have hnd2 : es.NodupKeys := (List.nodupKeys_cons.mp hnd).2
    have hk : k ∉ es.keys := (List.nodupKeys_cons.mp hnd).1
    obtain ⟨recs, -, hsp⟩ := feedSpace_sum rs add idx.entries 0
      (hstored ⟨k, idx⟩ (List.mem_cons_self _ _))
    obtain ⟨feeds, h1, h2⟩ := ih hnd2
      (assign acc k ⟨idx.entries.length,
        0 + (recs.map (fun r => r.Root.length + add)).sum⟩)
      (fun e he => hstored e (List.mem_cons_of_mem _ he))
    refine ⟨feeds, ?_, fun pk => ?_⟩
    · have hstep : statFeeds rs add (⟨k, idx⟩ :: es) acc =
          (match feedSpace rs add idx.entries 0 with
            | none => none
            | some space => statFeeds rs add es (assign acc k ⟨idx.entries.length, space⟩)) :=
        rfl
      rw [hstep, hsp]
      exact h1
    · rw [h2 pk]
      by_cases hpk : pk = k
      · subst hpk
        have hnone : es.dlookup pk = none := List.dlookup_eq_none.mpr hk
        rw [hnone, List.dlookup_cons_eq, lookup_assign, if_pos rfl]
        simp [hsp]
      · have hne := List.dlookup_cons_ne (β := fun _ : cipher.PubKey => FeedIndex) es
          (Sigma.mk k idx) hpk
        rw [hne]
        cases hl : es.dlookup pk with
        | some v => rfl
        | none =>
          show (assign acc k _).lookup pk = acc.lookup pk
          rw [lookup_assign, if_neg hpk]

theorem objectSpace_sum (es : List (Sigma (fun _ : cipher.SHA256 => Bytes))) (space : Nat) :
    es.foldl (fun space e => space + e.2.length) space =
      space + (es.map (fun e => e.2.length)).sum := by
  induction es generalizing space with
  | nil => simp
  | cons e es ih =>
    show es.foldl (fun space e => space + e.2.length) (space + e.2.length) = _
    rw [ih]
    simp [Nat.add_assoc]

end data

namespace data
open memoryDB

/-- C13: in a store state in which every indexed root hash is present in the
roots map, `Stat()` returns `Objects` = the number of entries of the objects
map, `Space` = the sum of the byte lengths of the object values, and for every
registered feed, also one without roots, a `FeedStat` with `Roots` = the
number of sequence numbers the feed indexes and `Space` = the sum over those
entries of `len(record.Root) + (2 * hash width + signature width + 8)`; no
statistics are reported for a key that is not registered.  `Stat` is a
function of the store: it writes none of the three maps. -/
theorem C13_stat (hashLen sigLen : Nat) (d : memoryDB)
    (hstored : ∀ e ∈ d.feeds.entries, ∀ x ∈ e.2.entries, (d.roots.lookup x.2).isSome) :
    ∃ s : data.Stat, memoryDB.Stat hashLen sigLen d = some s ∧
      s.Objects = d.objects.keys.length ∧
      s.Space = (d.objects.entries.map (fun e => e.2.length)).sum ∧
      (∀ pk rs, d.feeds.lookup pk = some rs →
        ∃ recs : List RootPack,
          rs.entries.map (fun x => d.roots.lookup x.2) = recs.map some ∧
          recs.length = rs.keys.length ∧
          s.Feeds.lookup pk = some ⟨rs.keys.length,
            (recs.map (fun r => r.Root.length + (2 * hashLen + sigLen + 8))).sum⟩) ∧
      (∀ pk, d.feeds.lookup pk = none → s.Feeds.lookup pk = none) := by
  have hobj : d.objects.entries.length = d.objects.keys.length := by
    simp [AList.keys, List.keys]
  have hsp := objectSpace_sum d.objects.entries 0
  rw [Nat.zero_add] at hsp
  by_cases hlen : d.feeds.entries.length = 0
  · have hnil : d.feeds.entries = [] := List.length_eq_zero.mp hlen
    have hnone : ∀ pk, d.feeds.lookup pk = none := by
      intro pk
      show List.dlookup pk d.feeds.entries = none
      rw [hnil]; rfl
    refine ⟨⟨d.objects.entries.length,
      d.objects.entries.foldl (fun space e => space + e.2.length) 0, ∅⟩, ?_, hobj, hsp, ?_, ?_⟩
    · simp [memoryDB.Stat, hlen]
    · intro pk rs h
      rw [hnone pk] at h
      cases h
    · intro pk _
      exact AList.lookup_empty pk
  · obtain ⟨feeds, h1, h2⟩ := statFeeds_lookup d.roots (hashLen * 2 + sigLen + 8)
      d.feeds.entries d.feeds.nodupKeys ∅ hstored
    refine ⟨⟨d.objects.entries.length,
      d.objects.entries.foldl (fun space e => space + e.2.length) 0, feeds⟩, ?_, hobj, hsp, ?_, ?_⟩
    · simp [memoryDB.Stat, hlen, h1]
    · intro pk rs h
      have hd : List.dlookup pk d.feeds.entries = some rs := h
      have hmem : (Sigma.mk pk rs : Sigma (fun _ : cipher.PubKey => FeedIndex)) ∈
          d.feeds.entries := (List.mem_dlookup_iff d.feeds.nodupKeys).mp hd
      obtain ⟨recs, e1, e2⟩ := feedSpace_sum d.roots (hashLen * 2 + sigLen + 8) rs.entries 0
        (hstored ⟨pk, rs⟩ hmem)
      have hl : recs.length = rs.keys.length := by
        have := congrArg List.length e1
        simp only [List.length_map] at this
        rw [← this]
        simp [AList.keys, List.keys]
      have hk : rs.entries.length = rs.keys.length := by
        simp [AList.keys, List.keys]
      refine ⟨recs, e1, hl, ?_⟩
      show AList.lookup pk feeds = _
      rw [h2 pk, hd]
      show Option.map _ (feedSpace d.roots (hashLen * 2 + sigLen + 8) rs.entries 0) = _
      rw [e2, Nat.zero_add, hk, Nat.mul_comm hashLen 2]
      rfl
    · intro pk h
      have hd : List.dlookup pk d.feeds.entries = none := h
      show AList.lookup pk feeds = none
      rw [h2 pk, hd]
      rfl

/-- A concrete instance of C13, with 32-byte hashes and 65-byte signatures:
`twoFeedStore` with one object of three bytes added holds three roots of one
byte each in feed 7 and one in feed 8. -/
theorem C13_stat_witness :
    memoryDB.Stat 32 65 (twoFeedStore.Set 1 [1, 2, 3]) =
      some ⟨1, 3, (AList.singleton 8 ⟨1, 1 + 137⟩).insert 7 ⟨3, 3 * (1 + 137)⟩⟩ ∧
    ∃ s : data.Stat, memoryDB.Stat 32 65 (twoFeedStore.Set 1 [1, 2, 3]) = some s ∧
      s.Objects = 1 ∧ s.Space = 3 :=
  ⟨by decide,
   (C13_stat 32 65 (twoFeedStore.Set 1 [1, 2, 3]) (by decide)).imp
     (fun _ h => ⟨h.1, h.2.1.trans (by decide), h.2.2.1.trans (by decide)⟩)⟩

end data

/-! ## The lock taken by the read-only methods -/

namespace data

/-- C18, at the failing input: `HasFeed` takes `d.mx.Lock()`, the exclusive
access, so the mutex admits neither two calls of `HasFeed` at once nor
`HasFeed` next to `Get`; the nine other read-only methods take `RLock()` and
the nine mutating methods take `Lock()`. -/
theorem C18_hasFeed_takes_exclusive_lock :
    Method.access Method.HasFeed = some Access.Lock ∧
    Method.mayOverlap Method.HasFeed Method.HasFeed = false ∧
    Method.mayOverlap Method.HasFeed Method.Get = false ∧
    (∀ m ∈ [Method.Get, Method.IsExist, Method.Range, Method.RangeFeed,
        Method.RangeFeedReverse, Method.GetRoot, Method.LastRoot, Method.Feeds, Method.Stat],
      Method.access m = some Access.RLock) ∧
    (∀ a ∈ [Method.Get, Method.IsExist, Method.Range, Method.RangeFeed,
        Method.RangeFeedReverse, Method.GetRoot, Method.LastRoot, Method.Feeds, Method.Stat],
      ∀ b ∈ [Method.Get, Method.IsExist, Method.Range, Method.RangeFeed,
        Method.RangeFeedReverse, Method.GetRoot, Method.LastRoot, Method.Feeds, Method.Stat],
      Method.mayOverlap a b = true) ∧
    (∀ m ∈ [Method.Set, Method.Add, Method.Del, Method.RangeDelete, Method.AddFeed,
        Method.DelFeed, Method.AddRoot, Method.RangeFeedDelete, Method.DelRootsBefore],
      Method.access m = some Access.Lock) := by
  decide

end data

/-! ## `RangeFeedDelete` on a feed whose sequence numbers index distinct hashes -/

namespace data
open memoryDB

/-- On sequence numbers that index pairwise distinct hashes, the predicate of
`RangeFeedDelete` is handed `d.roots[roots[seq]]` as it was before the call,
for every sequence number of the list in order. -/
theorem deleteVisits_distinct (fn : Option RootPack → Bool) (l : List Nat) (hnd : l.Nodup)
    (rs : RootsMap) (roots : FeedIndex)
    (hinj : ∀ s ∈ l, ∀ t ∈ l, s ≠ t → hashAt roots s ≠ hashAt roots t) :
    deleteVisits fn l (rs, roots) = l.map (fun s => rs.lookup (hashAt roots s)) := by
  induction l generalizing rs roots with
  | nil => rfl
  | cons a l ih =>
    have hnd2 : l.Nodup := (List.nodup_cons.mp hnd).2
    have hal : a ∉ l := (List.nodup_cons.mp hnd).1
    have hinj2 : ∀ s ∈ l, ∀ t ∈ l, s ≠ t → hashAt roots s ≠ hashAt roots t :=
      fun s hs t ht hst => hinj s (List.mem_cons_of_mem _ hs) t (List.mem_cons_of_mem _ ht) hst
    by_cases hf : fn (rs.lookup (hashAt roots a)) = true
    · have hsame : ∀ t ∈ l, hashAt (roots.erase a) t = hashAt roots t :=
        fun t ht => hashAt_erase_ne roots a t (fun e => hal (e ▸ ht))
      have hinj3 : ∀ s ∈ l, ∀ t ∈ l, s ≠ t →
          hashAt (roots.erase a) s ≠ hashAt (roots.erase a) t := by
        intro s hs t ht hst
        rw [hsame s hs, hsame t ht]
        exact hinj2 s hs t ht hst
      have hmap : l.map (fun s => (rs.erase (hashAt roots a)).lookup
            (hashAt (roots.erase a) s)) =
          l.map (fun s => rs.lookup (hashAt roots s)) := by
        apply List.map_congr_left
        intro s hs
        have hne : hashAt roots s ≠ hashAt roots a :=
          hinj s (List.mem_cons_of_mem _ hs) a (List.mem_cons_self _ _)
            (fun e => hal (e ▸ hs))
        rw [hsame s hs, lookup_erase_eq, if_neg hne]
      have h1 : deleteVisits fn (a :: l) (rs, roots) =
          rs.lookup (hashAt roots a) ::
            deleteVisits fn l (rs.erase (hashAt roots a), roots.erase a) := by
        show (if fn (rs.lookup (hashAt roots a)) = true then _ else _) = _
        rw [if_pos hf]
      rw [h1, ih hnd2 _ _ hinj3, hmap]
      rfl
    · have h1 : deleteVisits fn (a :: l) (rs, roots) =
          rs.lookup (hashAt roots a) :: deleteVisits fn l (rs, roots) := by
        show (if fn (rs.lookup (hashAt roots a)) = true then _ else _) = _
        rw [if_neg hf]
      rw [h1, ih hnd2 _ _ hinj2]
      rfl

/-- What `RangeFeedDelete` does on a feed whose sequence numbers index
pairwise distinct hashes: the predicate is handed `d.roots[roots[seq]]` in
ascending order of the sequence numbers, a sequence number leaves the index
exactly when the predicate selects what it was handed, and the hashes of the
entries that leave are absent from the roots map. -/
theorem rangeFeedDelete_distinct (d : memoryDB) (pk : cipher.PubKey)
    (fn : Option RootPack → Bool)
    (hinj : ∀ s ∈ (d.feedIndex pk).keys, ∀ t ∈ (d.feedIndex pk).keys,
      s ≠ t → hashAt (d.feedIndex pk) s ≠ hashAt (d.feedIndex pk) t) :
    d.RangeFeedDeleteVisits pk fn =
      (sortOrder (d.feedIndex pk).keys).map
        (fun s => d.roots.lookup (hashAt (d.feedIndex pk) s)) ∧
    (∀ s, ((d.RangeFeedDelete pk fn).feedIndex pk).lookup s =
      if s ∈ (d.feedIndex pk).keys ∧ fn (d.roots.lookup (hashAt (d.feedIndex pk) s)) = true
      then none else (d.feedIndex pk).lookup s) ∧
    (∀ s ∈ (d.feedIndex pk).keys, fn (d.roots.lookup (hashAt (d.feedIndex pk) s)) = true →
      (d.RangeFeedDelete pk fn).roots.lookup (hashAt (d.feedIndex pk) s) = none) := by
  by_cases hk : (d.feedIndex pk).keys.length = 0
  · have hnil : (d.feedIndex pk).keys = [] := List.length_eq_zero.mp hk
    refine ⟨?_, fun s => ?_, fun s hs => ?_⟩
    · simp [RangeFeedDeleteVisits, hk, hnil, sortOrder]
    · have : d.RangeFeedDelete pk fn = d := by simp [RangeFeedDelete, hk]
      rw [this, hnil]
      simp
    · rw [hnil] at hs
      cases hs
  · have hkne : (d.feedIndex pk).keys ≠ [] := fun e => hk (by rw [e]; rfl)
    have hf := lookup_feedIndex_of_keys_ne_nil d pk hkne
    have hnd : (sortOrder (d.feedIndex pk).keys).Nodup :=
      (sortOrder_perm _).nodup_iff.mpr (d.feedIndex pk).keys_nodup
    have hinj2 : ∀ s ∈ sortOrder (d.feedIndex pk).keys,
        ∀ t ∈ sortOrder (d.feedIndex pk).keys,
        s ≠ t → hashAt (d.feedIndex pk) s ≠ hashAt (d.feedIndex pk) t :=
      fun s hs t ht => hinj s ((mem_sortOrder _ s).mp hs) t ((mem_sortOrder _ t).mp ht)
    have hloop := deleteLoop_eq_trimLoop fn _ hnd d.roots (d.feedIndex pk) hinj2
    have hnd3 : ((sortOrder (d.feedIndex pk).keys).filter
        (fun s => fn (d.roots.lookup (hashAt (d.feedIndex pk) s)))).Nodup := hnd.filter _
    obtain ⟨t1, t2, -⟩ := trimLoop_spec _ hnd3 d.roots (d.feedIndex pk)
    have hstate : d.RangeFeedDelete pk fn =
        { d with
          roots := (deleteLoop fn (sortOrder (d.feedIndex pk).keys)
            (d.roots, d.feedIndex pk)).1
          feeds := d.feeds.replace pk
            (deleteLoop fn (sortOrder (d.feedIndex pk).keys) (d.roots, d.feedIndex pk)).2 } := by
      unfold RangeFeedDelete
      simp only [hk, if_false]
    refine ⟨?_, fun s => ?_, fun s hs hsel => ?_⟩
    · unfold RangeFeedDeleteVisits
      simp only [hk, if_false]
      exact deleteVisits_distinct fn _ hnd d.roots (d.feedIndex pk) hinj2
    · rw [hstate, feedIndex_mk, lookup_replace, if_pos rfl, hf, Option.map_some',
        Option.getD_some, hloop, t1 s]
      simp only [List.mem_filter, mem_sortOrder]
    · rw [hstate, hloop]
      exact t2 _ ⟨s, List.mem_filter.mpr ⟨(mem_sortOrder _ s).mpr hs, hsel⟩, rfl⟩

end data
